import Mathlib

/-!
smartdns-web: the ACL policy materialisation engine of `main.go`

A shallow embedding of `Hosts`, `inc`, `GetAclIpAllCidr`, `PostAclIpCidr` and
`DelAclIpCidr`, together with the parts of Go's `net`, `net/netip` and
`encoding/json` packages and of the etcd client that those functions call.

Conventions of the embedding:

* a Go byte slice is a `List Nat` whose entries are below 256, the nil slice is `[]`;
  `int` and `int64` values are integers (the handlers only compare and copy them);
* a Go string is a `String`; the address parsers look at it character by character, and
  every character outside ASCII is rejected exactly as its UTF-8 bytes are in Go;
* the functions of package `net` follow the current Go standard library, where
  `net.ParseCIDR` reads the address with `netip.ParseAddr`;
* the unbounded `for` loop of `Hosts` takes a step budget (`fuel`); `none` means the
  budget ran out before the loop condition became false;
* a value stored in etcd is seen through `encoding/json`: a text that decodes to an
  `AclStatus`, or a text that does not decode;
* every request to etcd either succeeds or ends in an error and then changes nothing; which
  requests err is a parameter of the client state, contexts and timeouts are not modelled
  otherwise.
-/

namespace SmartDns

/-! ## Package `net`, as far as `Hosts` reaches into it -/

/-- Go's `net.IP`: a slice of 4 or 16 bytes (or nil). -/
abbrev IP := List Nat

/-- Go's `net.IPMask`. -/
abbrev IPMask := List Nat

/-- Go's `net.IPNet`. -/
structure IPNet where
  IP : IP
  Mask : IPMask
deriving DecidableEq, Repr

/-- Big-endian value of a byte slice. -/
def beNat (bs : List Nat) : Nat :=
  bs.foldl (fun acc b => acc * 256 + b) 0

/-- The `n` big-endian bytes of `v` (the low `8 * n` bits). -/
def beBytes : Nat → Nat → List Nat
  | 0, _ => []
  | n + 1, v => beBytes n (v / 256) ++ [v % 256]

/-- Body of the loop of `inc`, entered with `j + 1` bytes still to visit:
`ip[j]++` on a `uint8`, and `break` as soon as the byte did not wrap to 0. -/
def incFrom : Nat → IP → IP
  | 0, ip => ip
  | j + 1, ip =>
    let ip1 := ip.set j ((ip.getD j 0 + 1) % 256)
    if ip1.getD j 0 > 0 then ip1 else incFrom j ip1

/-- Source `inc` (main.go 718-725): `for j := len(ip) - 1; j >= 0; j--`. -/
def inc (ip : IP) : IP :=
  incFrom ip.length ip

/-- Loop of `net.CIDRMask`: `l` bytes still to fill, `n` one-bits still to place. -/
def cidrMaskLoop : Nat → Nat → IPMask
  | 0, _ => []
  | l + 1, n =>
    if n ≥ 8 then 0xff :: cidrMaskLoop l (n - 8)
    else ((0xff >>> n) ^^^ 0xff) :: cidrMaskLoop l 0

/-- Go's `net.CIDRMask(ones, bits)`; nil for a width other than 32 or 128 or too many ones. -/
def CIDRMask (ones bits : Nat) : IPMask :=
  if bits ≠ 32 ∧ bits ≠ 128 then []
  else if ones > bits then []
  else cidrMaskLoop (bits / 8) ones

/-- The 12 bytes that precede an IPv4 address inside its 16-byte form. -/
def v4InV6Prefix : List Nat :=
  [0, 0, 0, 0, 0, 0, 0, 0, 0, 0, 0xff, 0xff]

/-- Go's `isZeros`. -/
def isZeros (p : List Nat) : Bool :=
  p.all (fun b => b == 0)

/-- Go's `allFF`. -/
def allFF (p : List Nat) : Bool :=
  p.all (fun b => b == 0xff)

/-- Go's `IP.To4`: the 4-byte form of an IPv4 address, nil when `ip` is not one. -/
def IP.To4 (ip : IP) : IP :=
  if ip.length = 4 then ip
  else if ip.length = 16 ∧ isZeros (ip.take 10) ∧ ip.getD 10 0 = 0xff ∧ ip.getD 11 0 = 0xff then
    (ip.drop 12).take 4
  else []

/-- Go's `IP.Mask`. -/
def IP.Mask (ip : IP) (mask : IPMask) : IP :=
  let mask1 :=
    if mask.length = 16 ∧ ip.length = 4 ∧ allFF (mask.take 12) then mask.drop 12 else mask
  let ip1 :=
    if mask1.length = 4 ∧ ip.length = 16 ∧ ip.take 12 = v4InV6Prefix then ip.drop 12 else ip
  if ip1.length ≠ mask1.length then []
  else List.zipWith (fun b m => b &&& m) ip1 mask1

/-- Go's `networkNumberAndMask`. -/
def networkNumberAndMask (n : IPNet) : IP × IPMask :=
  let ip4 := IP.To4 n.IP
  let ip := if ip4 ≠ [] then ip4 else n.IP
  if ip4 = [] ∧ ip.length ≠ 16 then ([], [])
  else
    let m := n.Mask
    if m.length = 4 then
      if ip.length ≠ 4 then ([], []) else (ip, m)
    else if m.length = 16 then
      if ip.length = 4 then (ip, m.drop 12) else (ip, m)
    else ([], [])

/-- Go's `IPNet.Contains`. -/
def IPNet.Contains (n : IPNet) (ip : SmartDns.IP) : Bool :=
  let nm := networkNumberAndMask n
  let x := IP.To4 ip
  let ip1 := if x ≠ [] then x else ip
  if ip1.length ≠ nm.1.length then false
  else (List.range ip1.length).all
    (fun i => nm.1.getD i 0 &&& nm.2.getD i 0 == ip1.getD i 0 &&& nm.2.getD i 0)

/-! ### Printing an address (`IP.String`, `netip.Addr.String`) -/

/-- The table `digits` of package `netip`. -/
def digitChar (d : Nat) : Char :=
  ("0123456789abcdef".toList).getD d '?'

/-- Go's `appendDecimal` for a `uint8`. -/
def appendDecimal (b : List Char) (x : Nat) : List Char :=
  let b1 := if x ≥ 100 then b ++ [digitChar (x / 100)] else b
  let b2 := if x ≥ 10 then b1 ++ [digitChar (x / 10 % 10)] else b1
  b2 ++ [digitChar (x % 10)]

/-- Go's `appendHex` for a `uint16`. -/
def appendHex (b : List Char) (x : Nat) : List Char :=
  let b1 := if x ≥ 0x1000 then b ++ [digitChar (x >>> 12)] else b
  let b2 := if x ≥ 0x100 then b1 ++ [digitChar (x >>> 8 &&& 0xf)] else b1
  let b3 := if x ≥ 0x10 then b2 ++ [digitChar (x >>> 4 &&& 0xf)] else b2
  b3 ++ [digitChar (x &&& 0xf)]

/-- Go's `Addr.string4`: dotted decimal. -/
def string4 (p4 : List Nat) : List Char :=
  let r0 := appendDecimal [] (p4.getD 0 0)
  let r1 := appendDecimal (r0 ++ ['.']) (p4.getD 1 0)
  let r2 := appendDecimal (r1 ++ ['.']) (p4.getD 2 0)
  appendDecimal (r2 ++ ['.']) (p4.getD 3 0)

/-- Go's `Addr.v6u16`: the `i`-th 16-bit group of a 16-byte address. -/
def v6u16 (ip : List Nat) (i : Nat) : Nat :=
  ip.getD (2 * i) 0 * 256 + ip.getD (2 * i + 1) 0

/-- First loop of `appendTo6`: the longest run of at least two zero groups, first one wins.
The state is `(zeroStart, zeroEnd)`, both 255 while no run has been found. -/
def zeroRun (ip : List Nat) : Nat × Nat :=
  (List.range 8).foldl
    (fun (z : Nat × Nat) i =>
      let j := i + (((List.range 8).drop i).takeWhile (fun k => v6u16 ip k == 0)).length
      let l := j - i
      if l ≥ 2 ∧ l > z.2 - z.1 then (i, j) else z)
    (255, 255)

/-- Second loop of `appendTo6`; `k` bounds the number of rounds (the index grows each round). -/
def emit6 (ip : List Nat) (z : Nat × Nat) : Nat → Nat → List Char → List Char
  | 0, _, ret => ret
  | k + 1, i, ret =>
    if ¬ i < 8 then ret
    else if i = z.1 then
      let ret1 := ret ++ [':', ':']
      let i1 := z.2
      if i1 ≥ 8 then ret1
      else emit6 ip z k (i1 + 1) (appendHex ret1 (v6u16 ip i1))
    else
      let ret1 := if i > 0 then ret ++ [':'] else ret
      emit6 ip z k (i + 1) (appendHex ret1 (v6u16 ip i))

/-- Go's `Addr.string6` for an address without zone. -/
def string6 (ip : List Nat) : List Char :=
  emit6 ip (zeroRun ip) 8 0 []

/-- Go's `hexString`. -/
def hexString (b : List Nat) : List Char :=
  b.flatMap (fun x => [digitChar (x >>> 4), digitChar (x &&& 0xf)])

/-- Go's `IP.String`. -/
def IP.String (ip : IP) : String :=
  if ip.length = 0 then "<nil>"
  else if ip.length ≠ 4 ∧ ip.length ≠ 16 then String.mk ('?' :: hexString ip)
  else if (IP.To4 ip).length = 4 then String.mk (string4 (IP.To4 ip))
  else String.mk (string6 ip)

/-! ### Parsing a CIDR (`net.ParseCIDR`, `netip.ParseAddr`) -/

/-- Go's `netip.Addr` as `ParseAddr` produces it: the 128-bit value, whether the address is
an IPv4 one (`z == z4`), and the IPv6 zone. -/
structure Addr where
  addr : Nat
  is4 : Bool
  zone : List Char
deriving DecidableEq, Repr

/-- Go's `Addr.BitLen`. -/
def Addr.BitLen (a : Addr) : Nat :=
  if a.is4 then 32 else 128

/-- Go's `Addr.As16`. -/
def Addr.As16 (a : Addr) : List Nat :=
  beBytes 16 a.addr

/-- Go's `netip.AddrFrom4`. -/
def AddrFrom4 (fields : List Nat) : Addr :=
  ⟨0xffff * 2 ^ 32 + beNat fields, true, []⟩

/-- Go's `netip.AddrFrom16(ip).WithZone(zone)`. -/
def AddrFrom16 (ip : List Nat) (zone : List Char) : Addr :=
  ⟨beNat ip, false, zone⟩

/-- Loop of `parseIPv4Fields`. Arguments: the rest of the input, the previous character (none
at index 0), `val`, `pos`, `digLen` and `fields`. `none` is a parse error. -/
def parseIPv4Loop : List Char → Option Char → Nat → Nat → Nat → List Nat → Option (List Nat)
  | [], _, val, pos, _, fields => if pos < 3 then none else some (fields.set 3 val)
  | c :: rest, prev, val, pos, digLen, fields =>
    if 48 ≤ c.toNat ∧ c.toNat ≤ 57 then
      if digLen = 1 ∧ val = 0 then none
      else if val * 10 + (c.toNat - 48) > 255 then none
      else parseIPv4Loop rest (some c) (val * 10 + (c.toNat - 48)) pos (digLen + 1) fields
    else if c = '.' then
      if prev = none ∨ rest = [] ∨ prev = some '.' then none
      else if pos = 3 then none
      else parseIPv4Loop rest (some c) 0 (pos + 1) 0 (fields.set pos val)
    else none

/-- Go's `parseIPv4Fields` on a whole string. -/
def parseIPv4Fields (s : List Char) : Option (List Nat) :=
  parseIPv4Loop s none 0 0 0 [0, 0, 0, 0]

/-- Go's `parseIPv4`. -/
def parseIPv4 (s : List Char) : Option Addr :=
  (parseIPv4Fields s).map AddrFrom4

/-- Value of a hexadecimal digit, `none` for any other character. -/
def hexVal (c : Char) : Option Nat :=
  if 48 ≤ c.toNat ∧ c.toNat ≤ 57 then some (c.toNat - 48)
  else if 97 ≤ c.toNat ∧ c.toNat ≤ 102 then some (c.toNat - 97 + 10)
  else if 65 ≤ c.toNat ∧ c.toNat ≤ 70 then some (c.toNat - 65 + 10)
  else none

/-- The hex-group scan inside `parseIPv6`: returns `(off, acc, s[off:])`, `none` on error. -/
def scanHex : List Char → Nat → Nat → Option (Nat × Nat × List Char)
  | [], off, acc => some (off, acc, [])
  | c :: rest, off, acc =>
    match hexVal c with
    | none => some (off, acc, c :: rest)
    | some d =>
      if off > 3 then none
      else if acc * 16 + d > 0xffff then none
      else scanHex rest (off + 1) (acc * 16 + d)

/-- State of the main loop of `parseIPv6`: the unread input `s`, the write index `i`, the
16-byte buffer and the position of the ellipsis (`none` for -1). -/
structure V6State where
  s : List Char
  i : Nat
  ip : List Nat
  ellipsis : Option Nat
deriving DecidableEq, Repr

/-- Main loop `for i < 16` of `parseIPv6`. Every round that does not leave the loop adds 2
to `i`, so 8 rounds are enough; `k` counts the rounds left. `none` is a parse error. -/
def parseIPv6Loop : Nat → V6State → Option V6State
  | 0, st => some st
  | k + 1, st =>
    if ¬ st.i < 16 then some st
    else
      match scanHex st.s 0 0 with
      | none => none
      | some (off, acc, rest) =>
        if off = 0 then none
        else if rest.head? = some '.' then
          if st.ellipsis = none ∧ st.i ≠ 12 then none
          else if st.i + 4 > 16 then none
          else
            match parseIPv4Fields st.s with
            | none => none
            | some f =>
              some ⟨[], st.i + 4,
                (((st.ip.set st.i (f.getD 0 0)).set (st.i + 1) (f.getD 1 0)).set (st.i + 2)
                  (f.getD 2 0)).set (st.i + 3) (f.getD 3 0), st.ellipsis⟩
        else
          let ip1 := (st.ip.set st.i (acc / 256)).set (st.i + 1) (acc % 256)
          match rest with
          | [] => some ⟨[], st.i + 2, ip1, st.ellipsis⟩
          | c :: rest1 =>
            if c ≠ ':' then none
            else if rest1 = [] then none
            else if rest1.head? = some ':' then
              if st.ellipsis ≠ none then none
              else if rest1.tail = [] then some ⟨[], st.i + 2, ip1, some (st.i + 2)⟩
              else parseIPv6Loop k ⟨rest1.tail, st.i + 2, ip1, some (st.i + 2)⟩
            else parseIPv6Loop k ⟨rest1, st.i + 2, ip1, st.ellipsis⟩

/-- The ellipsis expansion at the end of `parseIPv6`: move `ip[ellipsis:i]` to the end of
the buffer, highest index first, then clear the `16 - i` bytes at the ellipsis. -/
def expandEllipsis (ip : List Nat) (ellipsis i : Nat) : List Nat :=
  let n := 16 - i
  let moved := (List.range (i - ellipsis)).foldl
    (fun a t => a.set (i - 1 - t + n) (a.getD (i - 1 - t) 0)) ip
  (List.range n).foldl (fun a t => a.set (ellipsis + t) 0) moved

/-- Go's `parseIPv6`. -/
def parseIPv6 (input : List Char) : Option Addr :=
  let s0 := input.takeWhile (fun c => c ≠ '%')
  let hasZone : Bool := (input.dropWhile (fun c => c ≠ '%')) ≠ []
  let zone := (input.dropWhile (fun c => c ≠ '%')).drop 1
  if hasZone ∧ zone = [] then none
  else
    let lead : Bool := s0.take 2 = [':', ':']
    let s1 := if lead then s0.drop 2 else s0
    if lead ∧ s1 = [] then some (AddrFrom16 (List.replicate 16 0) zone)
    else
      match parseIPv6Loop 8 ⟨s1, 0, List.replicate 16 0, if lead then some 0 else none⟩ with
      | none => none
      | some st =>
        if st.s ≠ [] then none
        else if st.i < 16 then
          match st.ellipsis with
          | none => none
          | some e => some (AddrFrom16 (expandEllipsis st.ip e st.i) zone)
        else if st.ellipsis ≠ none then none
        else some (AddrFrom16 st.ip zone)

/-- Go's `netip.ParseAddr`: the first of `.`, `:` and `%` decides how the string is read. -/
def parseAddrScan (s : List Char) : List Char → Option Addr
  | [] => none
  | c :: rest =>
    if c = '.' then parseIPv4 s
    else if c = ':' then parseIPv6 s
    else if c = '%' then none
    else parseAddrScan s rest

/-- Go's `netip.ParseAddr`. -/
def ParseAddr (s : List Char) : Option Addr :=
  parseAddrScan s s

/-- Go's `dtoi`: decimal to integer, returning `(n, i, ok)`. -/
def dtoiLoop : List Char → Nat → Nat → Nat × Nat × Bool
  | [], n, i => if i = 0 then (0, 0, false) else (n, i, true)
  | c :: rest, n, i =>
    if 48 ≤ c.toNat ∧ c.toNat ≤ 57 then
      if n * 10 + (c.toNat - 48) ≥ 0xFFFFFF then (0xFFFFFF, i, false)
      else dtoiLoop rest (n * 10 + (c.toNat - 48)) (i + 1)
    else if i = 0 then (0, 0, false) else (n, i, true)

/-- Go's `dtoi`. -/
def dtoi (s : List Char) : Nat × Nat × Bool :=
  dtoiLoop s 0 0

/-- The error value of `ParseCIDR` (`&ParseError{Type: "CIDR address", Text: s}`). -/
structure ParseError where
  Text : String
deriving DecidableEq, Repr

/-- Go's `net.ParseCIDR`: the address and the network it lies in. -/
def ParseCIDR (s : String) : Except ParseError (IP × IPNet) :=
  let cs := s.toList
  if ¬ cs.contains '/' then .error ⟨s⟩
  else
    let addr := cs.takeWhile (fun c => c ≠ '/')
    let mask := (cs.dropWhile (fun c => c ≠ '/')).drop 1
    match ParseAddr addr with
    | none => .error ⟨s⟩
    | some ipAddr =>
      if ipAddr.zone ≠ [] then .error ⟨s⟩
      else
        let d := dtoi mask
        if ¬ d.2.2 ∨ d.2.1 ≠ mask.length ∨ d.1 > ipAddr.BitLen then .error ⟨s⟩
        else
          let m := CIDRMask d.1 ipAddr.BitLen
          .ok (ipAddr.As16, ⟨IP.Mask ipAddr.As16 m, m⟩)

/-! ## `Hosts` (main.go 696-716) -/

/-- The enumeration loop `for ip := ip.Mask(ipnet.Mask); ipnet.Contains(ip); inc(ip)` with
body `ips = append(ips, ip.String())`. `none`: the step budget ran out. -/
def hostsLoop (ipnet : IPNet) : Nat → IP → List String → Option (List String)
  | 0, _, _ => none
  | fuel + 1, ip, ips =>
    if IPNet.Contains ipnet ip then hostsLoop ipnet fuel (inc ip) (ips ++ [IP.String ip])
    else some ips

/-- The three results of `Hosts`. -/
structure HostsResult where
  ips : List String
  count : Nat
  err : Option ParseError
deriving DecidableEq, Repr

/-- Source `Hosts`. `none`: the enumeration loop did not finish within `fuel` rounds. -/
def Hosts (fuel : Nat) (cidr : String) : Option HostsResult :=
  match ParseCIDR cidr with
  | .error e => some ⟨[], 0, some e⟩
  | .ok (ip, ipnet) =>
    match hostsLoop ipnet fuel (IP.Mask ip ipnet.Mask) [] with
    | none => none
    | some ips =>
      if ips.length < 2 then some ⟨ips, ips.length, none⟩
      else some ⟨(ips.drop 1).take (ips.length - 1 - 1), ips.length - 2, none⟩

/-! ## `encoding/json` and the etcd client -/

/-- Source `AclStatus` (main.go 272-288). A nil slice and an empty one are both `[]`. -/
structure AclStatus where
  IP : String
  Cidr : String
  Netmask : Int
  MasterLineDnsReStr : String
  MasterDns : List String
  BackupLineDnsReStr : String
  BackupDns : List String
  ForwardGroup : List String
  Timeout : Int
  ID : Int
  HasChildren : Bool
  DataUrl : String
  UpdateUrl : String
  DelUrl : String
deriving DecidableEq, Repr

/-- The zero value `AclStatus{}` that `var tmpData AclStatus` declares. -/
def AclStatus.zero : AclStatus :=
  ⟨"", "", 0, "", [], "", [], [], 0, 0, false, "", "", ""⟩

/-- A stored or received byte string, seen through `encoding/json`: either a text that
`json.Unmarshal` decodes, into a zero `AclStatus`, to the value `a` (this is what
`json.Marshal a` produces), or a text on which `json.Unmarshal` returns an error. -/
inductive Value where
  | json (a : AclStatus)
  | malformed (text : String)
deriving DecidableEq, Repr

/-- Go's `json.Marshal` on an `AclStatus` (it cannot fail on this struct). -/
def Marshal (a : AclStatus) : Value :=
  Value.json a

/-- Go's `json.Unmarshal` into a zero `AclStatus`; `none` stands for `err != nil`. -/
def Unmarshal : Value → Option AclStatus
  | Value.json a => some a
  | Value.malformed _ => none

/-- A request sent to etcd. -/
inductive Request where
  | get (key : String)
  | put (key : String) (value : Value)
  | delete (key : String)
deriving DecidableEq, Repr

/-- The etcd cluster as the handlers see it through `cli`: the key-value map, the requests
issued so far (oldest first), and for each request number whether that request will end in
an error (unreachable store, expired context). A request that errs changes nothing. -/
structure Etcd where
  kv : String → Option Value
  log : List Request
  fails : Nat → Bool

/-- Go's `cli.Get(ctx, key)`: the new client state and `resp.Kvs`, `none` for `err != nil`. -/
def Etcd.Get (cli : Etcd) (key : String) : Etcd × Option (List (String × Value)) :=
  ({ cli with log := cli.log ++ [Request.get key] },
    if cli.fails cli.log.length then none
    else
      match cli.kv key with
      | some v => some [(key, v)]
      | none => some [])

/-- Go's `cli.Put(ctx, key, val)`: the new client state and whether `err != nil`. -/
def Etcd.Put (cli : Etcd) (key : String) (val : Value) : Etcd × Bool :=
  if cli.fails cli.log.length then ({ cli with log := cli.log ++ [Request.put key val] }, true)
  else
    ({ cli with
        kv := fun k => if k = key then some val else cli.kv k
        log := cli.log ++ [Request.put key val] }, false)

/-- Go's `cli.Delete(ctx, key)`: the new client state and whether `err != nil`. -/
def Etcd.Delete (cli : Etcd) (key : String) : Etcd × Bool :=
  if cli.fails cli.log.length then ({ cli with log := cli.log ++ [Request.delete key] }, true)
  else
    ({ cli with
        kv := fun k => if k = key then none else cli.kv k
        log := cli.log ++ [Request.delete key] }, false)

/-- Why a handler produced no response. -/
inductive Abort where
  | outOfFuel
  | indexOutOfRange
deriving DecidableEq, Repr

/-! ## The ACL handlers -/

/-- Loop of `GetAclIpAllCidr` (main.go 298-313) over `resp.Kvs`; `id` is the range index.
The source assigns the six fields before it looks at the decoding error; a struct that did
not decode is never appended, so nothing is computed for it here. -/
def allCidrLoop : List (String × Value) → Int → List AclStatus → List AclStatus
  | [], _, tmpStatusList => tmpStatusList
  | ev :: rest, id, tmpStatusList =>
    match Unmarshal ev.2 with
    | none => allCidrLoop rest (id + 1) tmpStatusList
    | some tmpStatus =>
      allCidrLoop rest (id + 1) (tmpStatusList ++ [{ tmpStatus with
        HasChildren := true
        ID := id
        IP := tmpStatus.Cidr
        DataUrl := "/v1/acl/ip/cidr/" ++ tmpStatus.Cidr
        UpdateUrl := "/v1/acl/ip/cidr"
        DelUrl := "/v1/acl/ip/cidr/" ++ tmpStatus.Cidr }])

/-- Source `GetAclIpAllCidr` (main.go 290-325) from the point where the prefix scan of
`/acl/ip/cidr/` has answered with `kvs`: the `Data` of the table it sends with status 200. -/
def GetAclIpAllCidr (kvs : List (String × Value)) : List AclStatus :=
  let tmpStatusList := allCidrLoop kvs 0 []
  if tmpStatusList.length = 0 then
    tmpStatusList ++ [{ AclStatus.zero with UpdateUrl := "/v1/acl/ip/cidr" }]
  else tmpStatusList

/-- Loop of `PostAclIpCidr` (main.go 352-376). `data` is threaded because the body
assigns `data.IP`. -/
def postLoop : List String → AclStatus → Etcd → AclStatus × Etcd
  | [], data, cli => (data, cli)
  | ip :: ips, data, cli =>
    match (cli.Get ("/acl/ip/pool/" ++ ip)).2 with
    | none => postLoop ips data (cli.Get ("/acl/ip/pool/" ++ ip)).1
    | some kvs =>
      match (match kvs with
        | [] => some AclStatus.zero
        | kv0 :: _ => Unmarshal kv0.2) with
      | none => postLoop ips data (cli.Get ("/acl/ip/pool/" ++ ip)).1
      | some tmpData =>
        if tmpData.Netmask > data.Netmask then
          postLoop ips data (cli.Get ("/acl/ip/pool/" ++ ip)).1
        else
          postLoop ips { data with IP := ip }
            ((cli.Get ("/acl/ip/pool/" ++ ip)).1.Put ("/acl/ip/pool/" ++ ip)
              (Marshal { data with IP := ip })).1

/-- Source `PostAclIpCidr` (main.go 327-379): the request body, the client state before;
the client state after and the status codes passed to `c.JSON`. -/
def PostAclIpCidr (fuel : Nat) (body : Value) (cli : Etcd) : Except Abort (Etcd × List Nat) :=
  match Unmarshal body with
  | none => .ok (cli, [501])
  | some data =>
    match Hosts fuel data.Cidr with
    | none => .error Abort.outOfFuel
    | some r =>
      if r.err ≠ none then .ok (cli, [502])
      else
        if (cli.Put ("/acl/ip/cidr/" ++ data.Cidr) (Marshal { data with IP := data.Cidr })).2 then
          .ok ((cli.Put ("/acl/ip/cidr/" ++ data.Cidr)
            (Marshal { data with IP := data.Cidr })).1, [503])
        else
          .ok ((postLoop r.ips { data with IP := data.Cidr }
            (cli.Put ("/acl/ip/cidr/" ++ data.Cidr)
              (Marshal { data with IP := data.Cidr })).1).2, [200])

/-- Loop `for n := 0; n < count; n++` of `DelAclIpCidr` (main.go 461-466) with `k` rounds
left; indexing `ips[n]` past the end panics. -/
def delLoop (ips : List String) : Nat → Nat → Etcd → Except Abort Etcd
  | 0, _, cli => .ok cli
  | k + 1, n, cli =>
    match ips[n]? with
    | none => .error Abort.indexOutOfRange
    | some ip => delLoop ips k (n + 1) (cli.Delete ("/acl/ip/pool/" ++ ip)).1

/-- Source `DelAclIpCidr` (main.go 447-476): the two path parameters, the client state
before; the client state after and the status codes passed to `c.JSON`. -/
def DelAclIpCidr (fuel : Nat) (network netmask : String) (cli : Etcd) :
    Except Abort (Etcd × List Nat) :=
  match Hosts fuel (network ++ "/" ++ netmask) with
  | none => .error Abort.outOfFuel
  | some r =>
    if r.err ≠ none then .ok (cli, [501])
    else
      match delLoop r.ips r.count 0 cli with
      | .error a => .error a
      | .ok cli1 =>
        if (cli1.Delete ("/v1/acl/ip/cidr/" ++ network ++ "/" ++ netmask)).2 then
          .ok ((cli1.Delete ("/v1/acl/ip/cidr/" ++ network ++ "/" ++ netmask)).1, [503, 200])
        else
          .ok ((cli1.Delete ("/v1/acl/ip/cidr/" ++ network ++ "/" ++ netmask)).1, [200])

/-! ## Vocabulary of the statements -/

/-- A client none of whose requests ends in an error. -/
def Etcd.healthy (cli : Etcd) : Prop :=
  ∀ n, cli.fails n = false

/-- What one round of `postLoop` for host `ip` leaves under the key of that host, given
what was there before (`cur`); read off the body of the loop (main.go 353-374) for a client
whose requests succeed. -/
def roundEffect (data : AclStatus) (ip : String) (cur : Option Value) : Option Value :=
  match cur with
  | none => if (0 : Int) > data.Netmask then none else some (Marshal { data with IP := ip })
  | some v =>
    match Unmarshal v with
    | none => some v
    | some tmpData =>
      if tmpData.Netmask > data.Netmask then some v else some (Marshal { data with IP := ip })

/-- The row that `GetAclIpAllCidr` shows for a decoded block `a` found at scan index `id`. -/
def cidrRow (id : Int) (a : AclStatus) : AclStatus :=
  { a with
    HasChildren := true
    ID := id
    IP := a.Cidr
    DataUrl := "/v1/acl/ip/cidr/" ++ a.Cidr
    UpdateUrl := "/v1/acl/ip/cidr"
    DelUrl := "/v1/acl/ip/cidr/" ++ a.Cidr }

/-- The value under `key` once a handler has answered; `none` when it did not answer. -/
def valueAfter (r : Except Abort (Etcd × List Nat)) (key : String) : Option (Option Value) :=
  match r with
  | .ok out => some (out.1.kv key)
  | .error _ => none

/-- The status codes a handler answered with; `none` when it did not answer. -/
def codesOf (r : Except Abort (Etcd × List Nat)) : Option (List Nat) :=
  match r with
  | .ok out => some out.2
  | .error _ => none

/-- The requests a handler sent to etcd; `none` when it did not answer. -/
def requestsOf (r : Except Abort (Etcd × List Nat)) : Option (List Request) :=
  match r with
  | .ok out => some out.1.log
  | .error _ => none

/-- An empty etcd whose requests all succeed. -/
def emptyEtcd : Etcd :=
  ⟨fun _ => none, [], fun _ => false⟩

/-- An etcd holding exactly one key, whose requests all succeed. -/
def singleEtcd (key : String) (v : Value) : Etcd :=
  ⟨fun k => if k = key then some v else none, [], fun _ => false⟩

/-- A sample policy block: only the CIDR, the netmask value and one line name are set. -/
def sampleBlock (cidr : String) (netmask : Int) (line : String) : AclStatus :=
  { AclStatus.zero with Cidr := cidr, Netmask := netmask, MasterLineDnsReStr := line }

/-- The store after block A (`10.0.0.0/29`, netmask value 24) and then block B
(`10.0.0.0/30`, netmask value 32) were submitted to an empty healthy etcd. -/
def afterAB : Etcd :=
  match PostAclIpCidr 16 (Value.json (sampleBlock "10.0.0.0/29" 24 "lineA")) emptyEtcd with
  | .ok outA =>
    match PostAclIpCidr 16 (Value.json (sampleBlock "10.0.0.0/30" 32 "lineB")) outA.1 with
    | .ok outB => outB.1
    | .error _ => emptyEtcd
  | .error _ => emptyEtcd

/-- Every entry is a byte. -/
def Bytes (l : List Nat) : Prop :=
  ∀ b ∈ l, b < 256

/-- The value of `::ffff:0:0`, the first IPv4-mapped address. -/
def v4MappedBase : Nat :=
  0xffff * 2 ^ 32

/-- The enumeration loop from `start` stops after exactly `n` rounds: with a budget above `n`
it returns the `n` addresses `start`, `inc start`, ... as strings, with a smaller one it runs
out. -/
def stopsAfter (ipnet : IPNet) (start : IP) (n : Nat) : Prop :=
  ∀ fuel, hostsLoop ipnet fuel start [] =
    if n < fuel then some ((List.range n).map (fun k => IP.String ((inc^[k]) start))) else none

/-! ## Facts about the store client -/

theorem pool_key_inj {a b : String} (h : "/acl/ip/pool/" ++ a = "/acl/ip/pool/" ++ b) :
    a = b := by
  have h1 := congrArg String.data h
  simp only [String.data_append] at h1
  exact String.ext (List.append_cancel_left h1)

theorem cidr_key_ne_pool_key (c ip : String) :
    "/acl/ip/cidr/" ++ c ≠ "/acl/ip/pool/" ++ ip := by
  intro h
  have h1 := congrArg String.data h
  simp only [String.data_append] at h1
  have h2 := congrArg (fun l => l.getD 8 'x') h1
  simp at h2

theorem Get_fst_kv (cli : Etcd) (key : String) : (cli.Get key).1.kv = cli.kv := rfl

theorem Get_fst_fails (cli : Etcd) (key : String) : (cli.Get key).1.fails = cli.fails := rfl

theorem Get_snd_healthy (cli : Etcd) (h : cli.healthy) (key : String) :
    (cli.Get key).2 = match cli.kv key with
      | some v => some [(key, v)]
      | none => some [] := by
  simp [Etcd.Get, h cli.log.length]

theorem Put_fails (cli : Etcd) (key : String) (v : Value) :
    (cli.Put key v).1.fails = cli.fails := by
  unfold Etcd.Put; split <;> rfl

theorem Put_healthy (cli : Etcd) (h : cli.healthy) (key : String) (v : Value) :
    (cli.Put key v).2 = false ∧
    (cli.Put key v).1.kv = fun k => if k = key then some v else cli.kv k := by
  simp [Etcd.Put, h cli.log.length]

theorem Delete_fails (cli : Etcd) (key : String) :
    (cli.Delete key).1.fails = cli.fails := by
  unfold Etcd.Delete; split <;> rfl

theorem Delete_healthy (cli : Etcd) (h : cli.healthy) (key : String) :
    (cli.Delete key).2 = false ∧
    (cli.Delete key).1.kv = fun k => if k = key then none else cli.kv k := by
  simp [Etcd.Delete, h cli.log.length]

theorem healthy_Get {cli : Etcd} (h : cli.healthy) (key : String) : (cli.Get key).1.healthy :=
  fun n => by rw [Get_fst_fails]; exact h n

theorem healthy_Put {cli : Etcd} (h : cli.healthy) (key : String) (v : Value) :
    (cli.Put key v).1.healthy :=
  fun n => by rw [Put_fails]; exact h n

theorem healthy_Delete {cli : Etcd} (h : cli.healthy) (key : String) :
    (cli.Delete key).1.healthy :=
  fun n => by rw [Delete_fails]; exact h n

/-! ## The loop of `PostAclIpCidr` -/

theorem roundEffect_idem (data : AclStatus) (ip : String) (cur : Option Value) :
    roundEffect data ip (roundEffect data ip cur) = roundEffect data ip cur := by
  unfold roundEffect
  cases cur with
  | none =>
    by_cases h : (0 : Int) > data.Netmask
    · simp [h]
    · simp [h, Marshal, Unmarshal]
  | some v =>
    cases v with
    | malformed t => simp [Unmarshal]
    | json a =>
      by_cases h : a.Netmask > data.Netmask
      · simp [Unmarshal, h]
      · simp [Unmarshal, h, Marshal]

/-- One round of the loop on a healthy client: the data and the client it continues with. -/
theorem postLoop_cons (ip : String) (ips : List String) (data : AclStatus) (cli : Etcd)
    (h : cli.healthy) :
    ∃ data1 cli1, postLoop (ip :: ips) data cli = postLoop ips data1 cli1 ∧
      cli1.healthy ∧ data1.Netmask = data.Netmask ∧
      (∀ x, ({ data1 with IP := x } : AclStatus) = { data with IP := x }) ∧
      cli1.kv = fun k =>
        if k = "/acl/ip/pool/" ++ ip then roundEffect data ip (cli.kv k) else cli.kv k := by
  have hget := Get_snd_healthy cli h ("/acl/ip/pool/" ++ ip)
  have hg := healthy_Get h ("/acl/ip/pool/" ++ ip)
  cases hcur : cli.kv ("/acl/ip/pool/" ++ ip) with
  | none =>
    rw [hcur] at hget
    by_cases hn : (0 : Int) > data.Netmask
    · refine ⟨data, (cli.Get ("/acl/ip/pool/" ++ ip)).1, ?_, hg, rfl, fun _ => rfl, ?_⟩
      · simp [postLoop, hget, AclStatus.zero, hn]
      · funext k
        by_cases hk : k = "/acl/ip/pool/" ++ ip
        · simp [hk, Get_fst_kv, hcur, roundEffect, hn]
        · simp [hk, Get_fst_kv]
    · refine ⟨{ data with IP := ip }, ((cli.Get ("/acl/ip/pool/" ++ ip)).1.Put
        ("/acl/ip/pool/" ++ ip) (Marshal { data with IP := ip })).1, ?_,
        healthy_Put hg _ _, rfl, fun _ => rfl, ?_⟩
      · simp [postLoop, hget, AclStatus.zero, hn]
      · rw [(Put_healthy _ hg _ _).2]
        funext k
        by_cases hk : k = "/acl/ip/pool/" ++ ip
        · simp [hk, hcur, roundEffect, hn]
        · simp [hk, Get_fst_kv]
  | some v =>
    rw [hcur] at hget
    cases v with
    | malformed t =>
      refine ⟨data, (cli.Get ("/acl/ip/pool/" ++ ip)).1, ?_, hg, rfl, fun _ => rfl, ?_⟩
      · simp [postLoop, hget, Unmarshal]
      · funext k
        by_cases hk : k = "/acl/ip/pool/" ++ ip
        · simp [hk, Get_fst_kv, hcur, roundEffect, Unmarshal]
        · simp [hk, Get_fst_kv]
    | json a =>
      by_cases hn : a.Netmask > data.Netmask
      · refine ⟨data, (cli.Get ("/acl/ip/pool/" ++ ip)).1, ?_, hg, rfl, fun _ => rfl, ?_⟩
        · simp [postLoop, hget, Unmarshal, hn]
        · funext k
          by_cases hk : k = "/acl/ip/pool/" ++ ip
          · simp [hk, Get_fst_kv, hcur, roundEffect, Unmarshal, hn]
          · simp [hk, Get_fst_kv]
      · refine ⟨{ data with IP := ip }, ((cli.Get ("/acl/ip/pool/" ++ ip)).1.Put
          ("/acl/ip/pool/" ++ ip) (Marshal { data with IP := ip })).1, ?_,
          healthy_Put hg _ _, rfl, fun _ => rfl, ?_⟩
        · simp [postLoop, hget, Unmarshal, hn]
        · rw [(Put_healthy _ hg _ _).2]
          funext k
          by_cases hk : k = "/acl/ip/pool/" ++ ip
          · simp [hk, hcur, roundEffect, Unmarshal, hn]
          · simp [hk, Get_fst_kv]

theorem roundEffect_congr (data data1 : AclStatus) (ip : String) (cur : Option Value)
    (hn : data1.Netmask = data.Netmask)
    (hd : ∀ x, ({ data1 with IP := x } : AclStatus) = { data with IP := x }) :
    roundEffect data1 ip cur = roundEffect data ip cur := by
  have h1 := hd ip
  unfold roundEffect
  rw [h1, hn]

/-- Keys that are not the key of a host of the list are left alone by the loop. -/
theorem postLoop_kv_other (ips : List String) : ∀ (data : AclStatus) (cli : Etcd),
    cli.healthy → ∀ k, (∀ ip ∈ ips, k ≠ "/acl/ip/pool/" ++ ip) →
    (postLoop ips data cli).2.kv k = cli.kv k := by
  induction ips with
  | nil => intro data cli _ k _; rfl
  | cons ip ips ih =>
    intro data cli h k hk
    obtain ⟨data1, cli1, heq, h1, -, -, hkv⟩ := postLoop_cons ip ips data cli h
    rw [heq, ih data1 cli1 h1 k (fun x hx => hk x (List.mem_cons_of_mem _ hx)), hkv]
    simp [hk ip (List.mem_cons_self _ _)]

/-- The key of every host of the list ends up holding what one round makes of it. -/
theorem postLoop_kv_host (ips : List String) : ∀ (data : AclStatus) (cli : Etcd),
    cli.healthy → ∀ ip ∈ ips,
    (postLoop ips data cli).2.kv ("/acl/ip/pool/" ++ ip) =
      roundEffect data ip (cli.kv ("/acl/ip/pool/" ++ ip)) := by
  induction ips with
  | nil => intro data cli _ ip hip; cases hip
  | cons ip0 ips ih =>
    intro data cli h ip hip
    obtain ⟨data1, cli1, heq, h1, hn, hd, hkv⟩ := postLoop_cons ip0 ips data cli h
    rw [heq]
    by_cases hmem : ip ∈ ips
    · rw [ih data1 cli1 h1 ip hmem, roundEffect_congr data data1 ip _ hn hd, hkv]
      by_cases he : ip = ip0
      · subst he
        simp [roundEffect_idem]
      · have : "/acl/ip/pool/" ++ ip ≠ "/acl/ip/pool/" ++ ip0 := fun hc => he (pool_key_inj hc)
        simp [this]
    · have he : ip = ip0 := by
        rcases List.mem_cons.1 hip with h0 | h0
        · exact h0
        · exact absurd h0 hmem
      subst he
      rw [postLoop_kv_other ips data1 cli1 h1 _
        (fun x hx hc => hmem (by rw [pool_key_inj hc]; exact hx)), hkv]
      simp

theorem postLoop_healthy (ips : List String) : ∀ (data : AclStatus) (cli : Etcd),
    cli.healthy → (postLoop ips data cli).2.healthy := by
  induction ips with
  | nil => intro data cli h; exact h
  | cons ip ips ih =>
    intro data cli h
    obtain ⟨data1, cli1, heq, h1, -, -, -⟩ := postLoop_cons ip ips data cli h
    rw [heq]
    exact ih data1 cli1 h1

/-- `PostAclIpCidr` on a healthy client and a block whose CIDR `Hosts` expands: it answers 200
and the store afterwards is described key by key. -/
theorem PostAclIpCidr_ok (fuel : Nat) (body : Value) (data : AclStatus) (cli : Etcd)
    (r : HostsResult) (hcli : cli.healthy) (hbody : Unmarshal body = some data)
    (hhosts : Hosts fuel data.Cidr = some r) (herr : r.err = none) :
    ∃ cli1, PostAclIpCidr fuel body cli = .ok (cli1, [200]) ∧ cli1.healthy ∧
      (∀ ip ∈ r.ips, cli1.kv ("/acl/ip/pool/" ++ ip) =
        roundEffect data ip (cli.kv ("/acl/ip/pool/" ++ ip))) ∧
      cli1.kv ("/acl/ip/cidr/" ++ data.Cidr) = some (Marshal { data with IP := data.Cidr }) ∧
      (∀ k, k ≠ "/acl/ip/cidr/" ++ data.Cidr → (∀ ip ∈ r.ips, k ≠ "/acl/ip/pool/" ++ ip) →
        cli1.kv k = cli.kv k) := by
  have hput := Put_healthy cli hcli ("/acl/ip/cidr/" ++ data.Cidr)
    (Marshal { data with IP := data.Cidr })
  have hh := healthy_Put hcli ("/acl/ip/cidr/" ++ data.Cidr)
    (Marshal { data with IP := data.Cidr })
  refine ⟨(postLoop r.ips { data with IP := data.Cidr }
    (cli.Put ("/acl/ip/cidr/" ++ data.Cidr) (Marshal { data with IP := data.Cidr })).1).2,
    ?_, postLoop_healthy _ _ _ hh, ?_, ?_, ?_⟩
  · simp [PostAclIpCidr, hbody, hhosts, herr, hput.1]
  · intro ip hip
    rw [postLoop_kv_host r.ips _ _ hh ip hip,
      roundEffect_congr data { data with IP := data.Cidr } ip _ rfl (fun _ => rfl), hput.2]
    simp [(cidr_key_ne_pool_key data.Cidr ip).symm]
  · rw [postLoop_kv_other r.ips _ _ hh _ (fun ip _ => cidr_key_ne_pool_key data.Cidr ip), hput.2]
    simp
  · intro k hk hk2
    rw [postLoop_kv_other r.ips _ _ hh _ hk2, hput.2]
    simp [hk]

/-! ## Claims about the handlers -/

/-- C3, evaluated on the input on which the code departs from it: deleting the block
`10.0.0.0/30` from a store that holds its block-level key `/acl/ip/cidr/10.0.0.0/30` answers
200, sends deletes for the two host keys and for `/v1/acl/ip/cidr/10.0.0.0/30`, and leaves
the block-level key in the store. -/
theorem DelAclIpCidr_keeps_block_key :
    codesOf (DelAclIpCidr 8 "10.0.0.0" "30"
      (singleEtcd "/acl/ip/cidr/10.0.0.0/30"
        (Marshal (sampleBlock "10.0.0.0/30" 24 "lineA")))) = some [200] ∧
    requestsOf (DelAclIpCidr 8 "10.0.0.0" "30"
      (singleEtcd "/acl/ip/cidr/10.0.0.0/30"
        (Marshal (sampleBlock "10.0.0.0/30" 24 "lineA")))) =
      some [Request.delete "/acl/ip/pool/10.0.0.1", Request.delete "/acl/ip/pool/10.0.0.2",
        Request.delete "/v1/acl/ip/cidr/10.0.0.0/30"] ∧
    valueAfter (DelAclIpCidr 8 "10.0.0.0" "30"
      (singleEtcd "/acl/ip/cidr/10.0.0.0/30"
        (Marshal (sampleBlock "10.0.0.0/30" 24 "lineA")))) "/acl/ip/cidr/10.0.0.0/30" =
      some (some (Marshal (sampleBlock "10.0.0.0/30" 24 "lineA"))) := by
  decide

/-- C4: on a healthy client, for a block whose CIDR `Hosts` expands and a host `ip` of that
expansion whose key holds a value `v` that decodes to a snapshot `s`, `PostAclIpCidr` answers
200 and afterwards the key still holds `v` if `s.Netmask > data.Netmask`, and holds the
serialisation of the block with `IP = ip` (and the block's netmask) if
`s.Netmask ≤ data.Netmask`. -/
theorem PostAclIpCidr_precedence (fuel : Nat) (body : Value) (data : AclStatus) (cli : Etcd)
    (r : HostsResult) (ip : String) (v : Value) (s : AclStatus)
    (hcli : cli.healthy) (hbody : Unmarshal body = some data)
    (hhosts : Hosts fuel data.Cidr = some r) (herr : r.err = none) (hip : ip ∈ r.ips)
    (hcur : cli.kv ("/acl/ip/pool/" ++ ip) = some v) (hs : Unmarshal v = some s) :
    ∃ cli1, PostAclIpCidr fuel body cli = .ok (cli1, [200]) ∧
      (s.Netmask > data.Netmask → cli1.kv ("/acl/ip/pool/" ++ ip) = some v) ∧
      (s.Netmask ≤ data.Netmask →
        cli1.kv ("/acl/ip/pool/" ++ ip) = some (Marshal { data with IP := ip }) ∧
        ({ data with IP := ip } : AclStatus).Netmask = data.Netmask) := by
  obtain ⟨cli1, hrun, -, hhost, -, -⟩ := PostAclIpCidr_ok fuel body data cli r hcli hbody hhosts herr
  refine ⟨cli1, hrun, ?_, ?_⟩
  · intro hgt
    rw [hhost ip hip, hcur]
    simp [roundEffect, hs, hgt]
  · intro hle
    rw [hhost ip hip, hcur]
    simp [roundEffect, hs, not_lt.2 hle]

/-- C5 as stated fails: submitting the block `10.0.0.0/30` with netmask value -1 to an empty
store answers 200 and writes the block-level key, but leaves the keys of both hosts without
a snapshot. -/
theorem PostAclIpCidr_negative_netmask_writes_no_snapshot :
    codesOf (PostAclIpCidr 8 (Value.json (sampleBlock "10.0.0.0/30" (-1) "lineA"))
      emptyEtcd) = some [200] ∧
    valueAfter (PostAclIpCidr 8 (Value.json (sampleBlock "10.0.0.0/30" (-1) "lineA"))
      emptyEtcd) "/acl/ip/cidr/10.0.0.0/30" =
      some (some (Marshal { sampleBlock "10.0.0.0/30" (-1) "lineA" with IP := "10.0.0.0/30" })) ∧
    valueAfter (PostAclIpCidr 8 (Value.json (sampleBlock "10.0.0.0/30" (-1) "lineA"))
      emptyEtcd) "/acl/ip/pool/10.0.0.1" = some none ∧
    valueAfter (PostAclIpCidr 8 (Value.json (sampleBlock "10.0.0.0/30" (-1) "lineA"))
      emptyEtcd) "/acl/ip/pool/10.0.0.2" = some none := by
  decide

/-- C6 as stated fails: with a malformed value under the key of host `10.0.0.1`, submitting
the block `10.0.0.0/30` answers 200, leaves the malformed value where it was (no snapshot is
written for that host), and writes the snapshot of the other host. -/
theorem PostAclIpCidr_malformed_not_overwritten :
    codesOf (PostAclIpCidr 8 (Value.json (sampleBlock "10.0.0.0/30" 24 "lineA"))
      (singleEtcd "/acl/ip/pool/10.0.0.1" (Value.malformed "oops"))) = some [200] ∧
    valueAfter (PostAclIpCidr 8 (Value.json (sampleBlock "10.0.0.0/30" 24 "lineA"))
      (singleEtcd "/acl/ip/pool/10.0.0.1" (Value.malformed "oops"))) "/acl/ip/pool/10.0.0.1" =
      some (some (Value.malformed "oops")) ∧
    valueAfter (PostAclIpCidr 8 (Value.json (sampleBlock "10.0.0.0/30" 24 "lineA"))
      (singleEtcd "/acl/ip/pool/10.0.0.1" (Value.malformed "oops"))) "/acl/ip/pool/10.0.0.1" ≠
      some (some (Marshal { sampleBlock "10.0.0.0/30" 24 "lineA" with IP := "10.0.0.1" })) ∧
    valueAfter (PostAclIpCidr 8 (Value.json (sampleBlock "10.0.0.0/30" 24 "lineA"))
      (singleEtcd "/acl/ip/pool/10.0.0.1" (Value.malformed "oops"))) "/acl/ip/pool/10.0.0.2" =
      some (some (Marshal { sampleBlock "10.0.0.0/30" 24 "lineA" with IP := "10.0.0.2" })) := by
  decide

/-- C6, amended: on a healthy client, a host `ip` of the expansion whose stored value does
not decode is skipped: `PostAclIpCidr` answers 200, the key of `ip` keeps the malformed
value, and every host of the expansion (the remaining ones included) ends up with what one
round of the loop makes of its key. -/
theorem PostAclIpCidr_skips_malformed (fuel : Nat) (body : Value) (data : AclStatus)
    (cli : Etcd) (r : HostsResult) (ip : String) (v : Value)
    (hcli : cli.healthy) (hbody : Unmarshal body = some data)
    (hhosts : Hosts fuel data.Cidr = some r) (herr : r.err = none) (hip : ip ∈ r.ips)
    (hcur : cli.kv ("/acl/ip/pool/" ++ ip) = some v) (hbad : Unmarshal v = none) :
    ∃ cli1, PostAclIpCidr fuel body cli = .ok (cli1, [200]) ∧
      cli1.kv ("/acl/ip/pool/" ++ ip) = some v ∧
      (∀ ip1 ∈ r.ips, cli1.kv ("/acl/ip/pool/" ++ ip1) =
        roundEffect data ip1 (cli.kv ("/acl/ip/pool/" ++ ip1))) := by
  obtain ⟨cli1, hrun, -, hhost, -, -⟩ := PostAclIpCidr_ok fuel body data cli r hcli hbody hhosts herr
  refine ⟨cli1, hrun, ?_, hhost⟩
  rw [hhost ip hip, hcur]
  simp [roundEffect, hbad]

/-- C7: on a healthy client, for a block whose CIDR `Hosts` expands, submitting the block a
second time right after the first answers 200 both times and leaves every key of the store
as the first submission left it. -/
theorem PostAclIpCidr_idempotent (fuel : Nat) (body : Value) (data : AclStatus) (cli : Etcd)
    (r : HostsResult) (hcli : cli.healthy) (hbody : Unmarshal body = some data)
    (hhosts : Hosts fuel data.Cidr = some r) (herr : r.err = none) :
    ∃ cli1 cli2, PostAclIpCidr fuel body cli = .ok (cli1, [200]) ∧
      PostAclIpCidr fuel body cli1 = .ok (cli2, [200]) ∧ cli2.kv = cli1.kv := by
  obtain ⟨cli1, hrun1, h1, hhost1, hblock1, -⟩ :=
    PostAclIpCidr_ok fuel body data cli r hcli hbody hhosts herr
  obtain ⟨cli2, hrun2, -, hhost2, hblock2, hother2⟩ :=
    PostAclIpCidr_ok fuel body data cli1 r h1 hbody hhosts herr
  refine ⟨cli1, cli2, hrun1, hrun2, ?_⟩
  funext k
  by_cases hk : ∃ ip ∈ r.ips, k = "/acl/ip/pool/" ++ ip
  · obtain ⟨ip, hip, rfl⟩ := hk
    rw [hhost2 ip hip, hhost1 ip hip, roundEffect_idem]
  · by_cases hb : k = "/acl/ip/cidr/" ++ data.Cidr
    · rw [hb, hblock2, hblock1]
    · exact hother2 k hb (fun ip hip hc => hk ⟨ip, hip, hc⟩)

/-- C8: for a string `s` that `ParseCIDR` rejects, `Hosts` returns no addresses, count 0 and
the parse error, whatever the step budget; `PostAclIpCidr` for a block with that CIDR answers
502 and `DelAclIpCidr` for path parameters that spell `s` answers 501, both handing back the
client exactly as it was: no request was sent and no key changed. -/
theorem invalid_cidr_rejected (fuel : Nat) (s : String) (e : ParseError)
    (h : ParseCIDR s = .error e) :
    Hosts fuel s = some ⟨[], 0, some e⟩ ∧
    (∀ (body : Value) (data : AclStatus) (cli : Etcd), Unmarshal body = some data →
      data.Cidr = s → PostAclIpCidr fuel body cli = .ok (cli, [502])) ∧
    (∀ (network netmask : String) (cli : Etcd), network ++ "/" ++ netmask = s →
      DelAclIpCidr fuel network netmask cli = .ok (cli, [501])) := by
  have hH : Hosts fuel s = some ⟨[], 0, some e⟩ := by simp [Hosts, h]
  refine ⟨hH, ?_, ?_⟩
  · intro body data cli hbody hc
    subst hc
    simp [PostAclIpCidr, hbody, hH]
  · intro network netmask cli hc
    subst hc
    simp [DelAclIpCidr, hH]

theorem allCidrLoop_eq (kvs : List (String × Value)) : ∀ (n : Nat) (acc : List AclStatus),
    allCidrLoop kvs (n : Int) acc =
      acc ++ (List.enumFrom n kvs).filterMap
        (fun p => (Unmarshal p.2.2).map (cidrRow (p.1 : Int))) := by
  induction kvs with
  | nil => intro n acc; simp [allCidrLoop]
  | cons ev rest ih =>
    intro n acc
    have hn : ((n : Int) + 1) = ((n + 1 : Nat) : Int) := by push_cast; rfl
    cases hev : Unmarshal ev.2 with
    | none =>
      rw [allCidrLoop, hev]
      simp only
      rw [hn, ih, List.enumFrom, List.filterMap_cons]
      simp only [hev, Option.map_none']
    | some a =>
      rw [allCidrLoop, hev]
      simp only
      rw [hn, ih, List.enumFrom, List.filterMap_cons]
      simp only [hev, Option.map_some', List.append_assoc, List.singleton_append]
      rfl

/-- C9: whatever the prefix scan of `/acl/ip/cidr/` returned, `GetAclIpAllCidr` shows, in scan
order, the row of every value that decodes (numbered by its scan index) and nothing for the
values that do not decode; when no value decodes (an empty scan included) it shows exactly
one placeholder row, the zero `AclStatus` with `UpdateUrl = "/v1/acl/ip/cidr"`; it never
shows an empty list, and the number of rows is the number of decodable values or 1. -/
theorem GetAclIpAllCidr_rows (kvs : List (String × Value)) :
    ((kvs.enum.filterMap (fun p => (Unmarshal p.2.2).map (cidrRow (p.1 : Int)))) ≠ [] →
      GetAclIpAllCidr kvs =
        kvs.enum.filterMap (fun p => (Unmarshal p.2.2).map (cidrRow (p.1 : Int)))) ∧
    ((∀ ev ∈ kvs, Unmarshal ev.2 = none) →
      GetAclIpAllCidr kvs = [{ AclStatus.zero with UpdateUrl := "/v1/acl/ip/cidr" }]) ∧
    GetAclIpAllCidr [] = [{ AclStatus.zero with UpdateUrl := "/v1/acl/ip/cidr" }] ∧
    GetAclIpAllCidr kvs ≠ [] ∧
    (GetAclIpAllCidr kvs).length =
      max 1 (kvs.filter (fun ev => (Unmarshal ev.2).isSome)).length := by
  have hloop : allCidrLoop kvs 0 [] =
      kvs.enum.filterMap (fun p => (Unmarshal p.2.2).map (cidrRow (p.1 : Int))) := by
    have := allCidrLoop_eq kvs 0 []
    simpa [List.enum] using this
  have hlen : ∀ (l : List (String × Value)) (n : Nat),
      ((List.enumFrom n l).filterMap
        (fun p => (Unmarshal p.2.2).map (cidrRow (p.1 : Int)))).length =
      (l.filter (fun ev => (Unmarshal ev.2).isSome)).length := by
    intro l
    induction l with
    | nil => intro n; rfl
    | cons ev rest ih =>
      intro n
      cases hev : Unmarshal ev.2 with
      | none => simp [List.enumFrom, List.filterMap_cons, hev, ih]
      | some a => simp [List.enumFrom, List.filterMap_cons, hev, ih]
  have hnone : (∀ ev ∈ kvs, Unmarshal ev.2 = none) →
      (kvs.filter (fun ev => (Unmarshal ev.2).isSome)) = [] := by
    intro h
    rw [List.filter_eq_nil_iff]
    intro ev hev
    simp [h ev hev]
  refine ⟨?_, ?_, ?_, ?_, ?_⟩
  · intro hne
    unfold GetAclIpAllCidr
    rw [hloop]
    simp [hne]
  · intro h
    have h0 : (allCidrLoop kvs 0 []).length = 0 := by
      rw [hloop]
      have := hlen kvs 0
      rw [List.enum, this, hnone h]; rfl
    unfold GetAclIpAllCidr
    simp only [h0, if_true]
    rw [List.length_eq_zero.1 h0]; rfl
  · rfl
  · unfold GetAclIpAllCidr
    by_cases h0 : (allCidrLoop kvs 0 []).length = 0
    · simp [h0]
    · simp only [h0, if_false]
      intro hc; rw [hc] at h0; exact h0 rfl
  · unfold GetAclIpAllCidr
    have hl := hlen kvs 0
    rw [← List.enum, ← hloop] at hl
    by_cases h0 : (allCidrLoop kvs 0 []).length = 0
    · simp only [h0, if_true]
      rw [List.length_eq_zero.1 h0, ← hl, h0]; rfl
    · simp only [h0, if_false]
      rw [← hl]; omega

/-- Witness of C4: block A (netmask value 24) and then the overlapping block B (netmask value
32) leave B's policy on host `10.0.0.1` of the intersection and A's on host `10.0.0.5`
outside it; submitting block C (netmask value 24) afterwards leaves `10.0.0.1` with B's
snapshot, and submitting block D with B's netmask value 32 overwrites it. -/
theorem PostAclIpCidr_precedence_witness :
    afterAB.kv "/acl/ip/pool/10.0.0.1" =
      some (Marshal { sampleBlock "10.0.0.0/30" 32 "lineB" with IP := "10.0.0.1" }) ∧
    afterAB.kv "/acl/ip/pool/10.0.0.5" =
      some (Marshal { sampleBlock "10.0.0.0/29" 24 "lineA" with IP := "10.0.0.5" }) ∧
    (∃ cli1, PostAclIpCidr 16 (Value.json (sampleBlock "10.0.0.0/29" 24 "lineC")) afterAB =
        .ok (cli1, [200]) ∧
      cli1.kv "/acl/ip/pool/10.0.0.1" =
        some (Marshal { sampleBlock "10.0.0.0/30" 32 "lineB" with IP := "10.0.0.1" })) ∧
    (∃ cli1, PostAclIpCidr 16 (Value.json (sampleBlock "10.0.0.0/29" 32 "lineD")) afterAB =
        .ok (cli1, [200]) ∧
      cli1.kv "/acl/ip/pool/10.0.0.1" =
        some (Marshal { sampleBlock "10.0.0.0/29" 32 "lineD" with IP := "10.0.0.1" })) := by
  have hH : Hosts 16 "10.0.0.0/29" = some ⟨["10.0.0.1", "10.0.0.2", "10.0.0.3", "10.0.0.4",
      "10.0.0.5", "10.0.0.6"], 6, none⟩ := by decide
  have hcur : afterAB.kv ("/acl/ip/pool/" ++ "10.0.0.1") =
      some (Marshal { sampleBlock "10.0.0.0/30" 32 "lineB" with IP := "10.0.0.1" }) := by decide
  have hhealthy : afterAB.healthy := fun _ => rfl
  refine ⟨by decide, by decide, ?_, ?_⟩
  · obtain ⟨cli1, hrun, hkeep, -⟩ := PostAclIpCidr_precedence 16
      (Value.json (sampleBlock "10.0.0.0/29" 24 "lineC")) (sampleBlock "10.0.0.0/29" 24 "lineC")
      afterAB _ "10.0.0.1" _ _ hhealthy rfl hH rfl (by decide) hcur rfl
    exact ⟨cli1, hrun, hkeep (by decide)⟩
  · obtain ⟨cli1, hrun, -, hover⟩ := PostAclIpCidr_precedence 16
      (Value.json (sampleBlock "10.0.0.0/29" 32 "lineD")) (sampleBlock "10.0.0.0/29" 32 "lineD")
      afterAB _ "10.0.0.1" _ _ hhealthy rfl hH rfl (by decide) hcur rfl
    exact ⟨cli1, hrun, (hover (by decide)).1⟩

/-- Witness of the amended C6: the block `10.0.0.0/30` submitted to a store whose key of host
`10.0.0.1` holds a malformed value. -/
theorem PostAclIpCidr_skips_malformed_witness :
    ∃ cli1, PostAclIpCidr 8 (Value.json (sampleBlock "10.0.0.0/30" 24 "lineA"))
        (singleEtcd "/acl/ip/pool/10.0.0.1" (Value.malformed "oops")) = .ok (cli1, [200]) ∧
      cli1.kv ("/acl/ip/pool/" ++ "10.0.0.1") = some (Value.malformed "oops") ∧
      (∀ ip1 ∈ ["10.0.0.1", "10.0.0.2"], cli1.kv ("/acl/ip/pool/" ++ ip1) =
        roundEffect (sampleBlock "10.0.0.0/30" 24 "lineA") ip1
          ((singleEtcd "/acl/ip/pool/10.0.0.1" (Value.malformed "oops")).kv
            ("/acl/ip/pool/" ++ ip1))) :=
  PostAclIpCidr_skips_malformed 8 (Value.json (sampleBlock "10.0.0.0/30" 24 "lineA"))
    (sampleBlock "10.0.0.0/30" 24 "lineA")
    (singleEtcd "/acl/ip/pool/10.0.0.1" (Value.malformed "oops"))
    ⟨["10.0.0.1", "10.0.0.2"], 2, none⟩ "10.0.0.1" (Value.malformed "oops")
    (fun _ => rfl) rfl (by decide) rfl (by decide) (by decide) rfl

/-- Witness of C7: the block `10.0.0.0/30` submitted twice to a store that already holds a
snapshot with a larger netmask value for host `10.0.0.1`. -/
theorem PostAclIpCidr_idempotent_witness :
    ∃ cli1 cli2, PostAclIpCidr 8 (Value.json (sampleBlock "10.0.0.0/30" 24 "lineA"))
        (singleEtcd "/acl/ip/pool/10.0.0.1"
          (Marshal { sampleBlock "10.0.0.1/32" 32 "lineB" with IP := "10.0.0.1" })) =
        .ok (cli1, [200]) ∧
      PostAclIpCidr 8 (Value.json (sampleBlock "10.0.0.0/30" 24 "lineA")) cli1 =
        .ok (cli2, [200]) ∧ cli2.kv = cli1.kv :=
  PostAclIpCidr_idempotent 8 (Value.json (sampleBlock "10.0.0.0/30" 24 "lineA"))
    (sampleBlock "10.0.0.0/30" 24 "lineA")
    (singleEtcd "/acl/ip/pool/10.0.0.1"
      (Marshal { sampleBlock "10.0.0.1/32" 32 "lineB" with IP := "10.0.0.1" }))
    ⟨["10.0.0.1", "10.0.0.2"], 2, none⟩ (fun _ => rfl) rfl (by decide) rfl

/-- Witness of C8: `10.0.0.0/33` is not a CIDR (the prefix length exceeds 32). -/
theorem invalid_cidr_rejected_witness :
    ParseCIDR "10.0.0.0/33" = .error ⟨"10.0.0.0/33"⟩ ∧
    Hosts 8 "10.0.0.0/33" = some ⟨[], 0, some ⟨"10.0.0.0/33"⟩⟩ ∧
    PostAclIpCidr 8 (Value.json (sampleBlock "10.0.0.0/33" 24 "lineA")) emptyEtcd =
      .ok (emptyEtcd, [502]) ∧
    DelAclIpCidr 8 "10.0.0.0" "33" emptyEtcd = .ok (emptyEtcd, [501]) :=
  ⟨by rfl, (invalid_cidr_rejected 8 "10.0.0.0/33" ⟨"10.0.0.0/33"⟩ (by rfl)).1,
    (invalid_cidr_rejected 8 "10.0.0.0/33" ⟨"10.0.0.0/33"⟩ (by rfl)).2.1 _
      (sampleBlock "10.0.0.0/33" 24 "lineA") emptyEtcd rfl rfl,
    (invalid_cidr_rejected 8 "10.0.0.0/33" ⟨"10.0.0.0/33"⟩ (by rfl)).2.2
      "10.0.0.0" "33" emptyEtcd (by decide)⟩

/-! ### What `DelAclIpCidr` and `PostAclIpCidr` do in general -/

/-- C5, amended: on a healthy client, for a block whose CIDR `Hosts` expands and a host `ip`
of that expansion without a snapshot, `PostAclIpCidr` answers 200 and, when the block's
netmask value is not negative, leaves under the key of `ip` the serialisation of the block
with `IP = ip` (and the block's netmask); when the netmask value is negative it leaves the
key without a snapshot. -/
theorem PostAclIpCidr_absent_host (fuel : Nat) (body : Value) (data : AclStatus) (cli : Etcd)
    (r : HostsResult) (ip : String) (hcli : cli.healthy) (hbody : Unmarshal body = some data)
    (hhosts : Hosts fuel data.Cidr = some r) (herr : r.err = none) (hip : ip ∈ r.ips)
    (habs : cli.kv ("/acl/ip/pool/" ++ ip) = none) :
    ∃ cli1, PostAclIpCidr fuel body cli = .ok (cli1, [200]) ∧
      (0 ≤ data.Netmask →
        cli1.kv ("/acl/ip/pool/" ++ ip) = some (Marshal { data with IP := ip }) ∧
        ({ data with IP := ip } : AclStatus).Netmask = data.Netmask) ∧
      (data.Netmask < 0 → cli1.kv ("/acl/ip/pool/" ++ ip) = none) := by
  obtain ⟨cli1, hrun, -, hhost, -, -⟩ := PostAclIpCidr_ok fuel body data cli r hcli hbody hhosts herr
  refine ⟨cli1, hrun, ?_, ?_⟩
  · intro hn
    rw [hhost ip hip, habs]
    simp [roundEffect, not_lt.2 hn]
  · intro hn
    rw [hhost ip hip, habs]
    simp [roundEffect, hn]

/-- Witness of the amended C5: the block `10.0.0.0/30` with netmask value 24 submitted to an
empty store; host `10.0.0.1` gets its snapshot. -/
theorem PostAclIpCidr_absent_host_witness :
    ∃ cli1, PostAclIpCidr 8 (Value.json (sampleBlock "10.0.0.0/30" 24 "lineA")) emptyEtcd =
        .ok (cli1, [200]) ∧
      cli1.kv ("/acl/ip/pool/" ++ "10.0.0.1") =
        some (Marshal { sampleBlock "10.0.0.0/30" 24 "lineA" with IP := "10.0.0.1" }) := by
  obtain ⟨cli1, hrun, hpos, -⟩ := PostAclIpCidr_absent_host 8
    (Value.json (sampleBlock "10.0.0.0/30" 24 "lineA")) (sampleBlock "10.0.0.0/30" 24 "lineA")
    emptyEtcd ⟨["10.0.0.1", "10.0.0.2"], 2, none⟩ "10.0.0.1" (fun _ => rfl) rfl (by decide) rfl
    (by decide) rfl
  exact ⟨cli1, hrun, (hpos (by decide)).1⟩

theorem Hosts_count (fuel : Nat) (s : String) (r : HostsResult) (h : Hosts fuel s = some r) :
    r.count = r.ips.length := by
  unfold Hosts at h
  split at h
  · cases h; rfl
  · split at h
    · cases h
    · split at h
      · cases h; rfl
      · cases h
        simp only [List.length_take, List.length_drop]
        omega

theorem v1_key_ne_pool_key (c ip : String) :
    "/v1/acl/ip/cidr/" ++ c ≠ "/acl/ip/pool/" ++ ip := by
  intro h
  have h1 := congrArg String.data h
  simp only [String.data_append] at h1
  have h2 := congrArg (fun l => l.getD 1 'x') h1
  simp at h2

theorem v1_key_ne_cidr_key (c d : String) :
    "/v1/acl/ip/cidr/" ++ c ≠ "/acl/ip/cidr/" ++ d := by
  intro h
  have h1 := congrArg String.data h
  simp only [String.data_append] at h1
  have h2 := congrArg (fun l => l.getD 1 'x') h1
  simp at h2

/-- The delete loop on a healthy client removes the keys of the hosts it indexes. -/
theorem delLoop_healthy (ips : List String) : ∀ (k n : Nat) (cli : Etcd), cli.healthy →
    n + k ≤ ips.length →
    ∃ cli1, delLoop ips k n cli = .ok cli1 ∧ cli1.healthy ∧
      ∀ key, cli1.kv key =
        if ∃ ip ∈ (ips.drop n).take k, key = "/acl/ip/pool/" ++ ip then none else cli.kv key := by
  intro k
  induction k with
  | zero =>
    intro n cli h _
    exact ⟨cli, rfl, h, fun key => by simp⟩
  | succ k ih =>
    intro n cli h hn
    have hlt : n < ips.length := by omega
    have hget : ips[n]? = some ips[n] := List.getElem?_eq_getElem hlt
    obtain ⟨cli1, hrun, h1, hkv⟩ := ih (n + 1) (cli.Delete ("/acl/ip/pool/" ++ ips[n])).1
      (healthy_Delete h _) (by omega)
    refine ⟨cli1, ?_, h1, ?_⟩
    · rw [delLoop, hget]
      exact hrun
    · intro key
      rw [hkv, (Delete_healthy cli h _).2]
      have hdrop : ips.drop n = ips[n] :: ips.drop (n + 1) := List.drop_eq_getElem_cons hlt
      rw [hdrop, List.take_succ_cons]
      by_cases hk1 : ∃ ip ∈ (ips.drop (n + 1)).take k, key = "/acl/ip/pool/" ++ ip
      · obtain ⟨ip, hip, hkey⟩ := hk1
        rw [if_pos ⟨ip, hip, hkey⟩, if_pos ⟨ip, List.mem_cons_of_mem _ hip, hkey⟩]
      · rw [if_neg hk1]
        beta_reduce
        by_cases hk2 : key = "/acl/ip/pool/" ++ ips[n]
        · rw [if_pos hk2, if_pos ⟨ips[n], List.mem_cons_self _ _, hk2⟩]
        · rw [if_neg hk2, if_neg]
          rintro ⟨ip, hip, hkey⟩
          rcases List.mem_cons.1 hip with h0 | h0
          · exact hk2 (by rw [hkey, h0])
          · exact hk1 ⟨ip, h0, hkey⟩

/-- The part of C3 that holds, and where it stops: on a healthy client and a CIDR that `Hosts`
expands, `DelAclIpCidr` answers 200, removes the key of every host of the expansion and the
key `/v1/acl/ip/cidr/` + cidr, and leaves every other key as it was; the block-level key
`/acl/ip/cidr/` + cidr is among those left as they were. -/
theorem DelAclIpCidr_effect (fuel : Nat) (network netmask : String) (cli : Etcd)
    (r : HostsResult) (hcli : cli.healthy)
    (hhosts : Hosts fuel (network ++ "/" ++ netmask) = some r) (herr : r.err = none) :
    ∃ cli1, DelAclIpCidr fuel network netmask cli = .ok (cli1, [200]) ∧
      (∀ ip ∈ r.ips, cli1.kv ("/acl/ip/pool/" ++ ip) = none) ∧
      cli1.kv ("/v1/acl/ip/cidr/" ++ network ++ "/" ++ netmask) = none ∧
      (∀ key, (∀ ip ∈ r.ips, key ≠ "/acl/ip/pool/" ++ ip) →
        key ≠ "/v1/acl/ip/cidr/" ++ network ++ "/" ++ netmask → cli1.kv key = cli.kv key) ∧
      cli1.kv ("/acl/ip/cidr/" ++ (network ++ "/" ++ netmask)) =
        cli.kv ("/acl/ip/cidr/" ++ (network ++ "/" ++ netmask)) := by
  have hcount := Hosts_count fuel _ r hhosts
  obtain ⟨cli0, hloop, h0, hkv0⟩ := delLoop_healthy r.ips r.count 0 cli hcli (by omega)
  have hdel := Delete_healthy cli0 h0 ("/v1/acl/ip/cidr/" ++ network ++ "/" ++ netmask)
  have htake : (r.ips.drop 0).take r.count = r.ips := by
    rw [List.drop_zero, hcount, List.take_length]
  rw [htake] at hkv0
  have hkv : ∀ key, (cli0.Delete ("/v1/acl/ip/cidr/" ++ network ++ "/" ++ netmask)).1.kv key =
      if key = "/v1/acl/ip/cidr/" ++ network ++ "/" ++ netmask then none
      else if ∃ ip ∈ r.ips, key = "/acl/ip/pool/" ++ ip then none else cli.kv key := by
    intro key
    rw [hdel.2]
    beta_reduce
    rw [hkv0]
  refine ⟨(cli0.Delete ("/v1/acl/ip/cidr/" ++ network ++ "/" ++ netmask)).1, ?_, ?_, ?_, ?_, ?_⟩
  · simp [DelAclIpCidr, hhosts, herr, hloop, hdel.1]
  · intro ip hip
    rw [hkv, if_neg, if_pos ⟨ip, hip, rfl⟩]
    rw [String.append_assoc, String.append_assoc]
    exact (v1_key_ne_pool_key _ ip).symm
  · rw [hkv, if_pos rfl]
  · intro key h1 h2
    rw [hkv, if_neg h2, if_neg]
    rintro ⟨ip, hip, hkey⟩
    exact h1 ip hip hkey
  · rw [hkv, if_neg, if_neg]
    · rintro ⟨ip, -, hkey⟩
      exact cidr_key_ne_pool_key _ ip hkey
    · rw [String.append_assoc, String.append_assoc]
      exact (v1_key_ne_cidr_key _ _).symm

/-! ## Bytes and numbers -/

theorem beNat_foldl (l : List Nat) : ∀ acc : Nat,
    l.foldl (fun acc b => acc * 256 + b) acc = acc * 256 ^ l.length + beNat l := by
  induction l with
  | nil => intro acc; simp [beNat]
  | cons a l ih =>
    intro acc
    have h1 := ih (acc * 256 + a)
    have h2 := ih (0 * 256 + a)
    simp only [beNat, List.foldl_cons, List.length_cons] at *
    rw [h1, h2]
    ring

theorem beNat_nil : beNat [] = 0 := rfl

theorem beNat_cons (a : Nat) (l : List Nat) : beNat (a :: l) = a * 256 ^ l.length + beNat l := by
  have := beNat_foldl l (0 * 256 + a)
  simp only [beNat, List.foldl_cons] at *
  rw [this]; ring

theorem beNat_append (l1 l2 : List Nat) :
    beNat (l1 ++ l2) = beNat l1 * 256 ^ l2.length + beNat l2 := by
  unfold beNat
  rw [List.foldl_append, beNat_foldl]
  rfl

theorem beNat_snoc (l : List Nat) (b : Nat) : beNat (l ++ [b]) = beNat l * 256 + b := by
  rw [beNat_append]; simp [beNat]

theorem Bytes_nil : Bytes [] := fun _ h => by cases h

theorem Bytes_cons {a : Nat} {l : List Nat} : Bytes (a :: l) ↔ a < 256 ∧ Bytes l := by
  simp [Bytes]

theorem Bytes_append {l1 l2 : List Nat} : Bytes (l1 ++ l2) ↔ Bytes l1 ∧ Bytes l2 := by
  simp only [Bytes, List.mem_append]
  constructor
  · intro h; exact ⟨fun b hb => h b (Or.inl hb), fun b hb => h b (Or.inr hb)⟩
  · rintro ⟨h1, h2⟩ b (hb | hb)
    · exact h1 b hb
    · exact h2 b hb

theorem beNat_lt (l : List Nat) (h : Bytes l) : beNat l < 256 ^ l.length := by
  induction l with
  | nil => simp [beNat]
  | cons a l ih =>
    rw [Bytes_cons] at h
    have := ih h.2
    rw [beNat_cons, List.length_cons, pow_succ]
    nlinarith [h.1]

theorem beBytes_length (n : Nat) : ∀ v, (beBytes n v).length = n := by
  induction n with
  | zero => intro v; rfl
  | succ n ih => intro v; simp [beBytes, ih]

theorem beBytes_bytes (n : Nat) : ∀ v, Bytes (beBytes n v) := by
  induction n with
  | zero => intro v; exact Bytes_nil
  | succ n ih =>
    intro v
    rw [beBytes, Bytes_append]
    exact ⟨ih _, by simp [Bytes]; omega⟩

theorem beNat_beBytes (n : Nat) : ∀ v, beNat (beBytes n v) = v % 256 ^ n := by
  induction n with
  | zero => intro v; simp [beBytes, beNat, Nat.mod_one]
  | succ n ih =>
    intro v
    rw [beBytes, beNat_snoc, ih, pow_succ, Nat.mul_comm (256 ^ n) 256, Nat.mod_mul]
    ring

theorem beBytes_beNat (l : List Nat) (h : Bytes l) : beBytes l.length (beNat l) = l := by
  induction l using List.reverseRecOn with
  | nil => rfl
  | append_singleton l b ih =>
    rw [Bytes_append] at h
    have hb : b < 256 := h.2 b (List.mem_singleton_self b)
    rw [List.length_append, List.length_singleton, beBytes, beNat_snoc]
    have h1 : (beNat l * 256 + b) / 256 = beNat l := by omega
    have h2 : (beNat l * 256 + b) % 256 = b := by omega
    rw [h1, h2, ih h.1]

theorem beBytes_mod (n v : Nat) : beBytes n (v % 256 ^ n) = beBytes n v := by
  have h := beBytes_beNat (beBytes n v) (beBytes_bytes n v)
  rw [beBytes_length, beNat_beBytes] at h
  exact h

theorem beBytes_append (a b : Nat) : ∀ v,
    beBytes (a + b) v = beBytes a (v / 256 ^ b) ++ beBytes b v := by
  induction b with
  | zero => intro v; simp [beBytes]
  | succ b ih =>
    intro v
    rw [← Nat.add_assoc, beBytes, beBytes, ih, List.append_assoc, Nat.div_div_eq_div_mul,
      pow_succ, Nat.mul_comm 256]

theorem beNat_inj (l1 l2 : List Nat) (h1 : Bytes l1) (h2 : Bytes l2)
    (hlen : l1.length = l2.length) (h : beNat l1 = beNat l2) : l1 = l2 := by
  rw [← beBytes_beNat l1 h1, ← beBytes_beNat l2 h2, hlen, h]

theorem incFrom_spec (j : Nat) : ∀ (pre suf : List Nat), pre.length = j → Bytes pre →
    incFrom j (pre ++ suf) = beBytes j (beNat pre + 1) ++ suf := by
  induction j with
  | zero =>
    intro pre suf hlen _
    rw [List.length_eq_zero.1 hlen]
    rfl
  | succ j ih =>
    intro pre suf hlen hb
    obtain ⟨pre1, b, rfl⟩ : ∃ pre1 b, pre = pre1 ++ [b] := by
      rcases List.eq_nil_or_concat pre with h | ⟨l, b, h⟩
      · rw [h] at hlen; cases hlen
      · exact ⟨l, b, by rw [h]; simp⟩
    rw [Bytes_append] at hb
    have hb1 : b < 256 := hb.2 b (List.mem_singleton_self b)
    have hl : pre1.length = j := by simpa using hlen
    have hget : (pre1 ++ [b] ++ suf).getD j 0 = b := by
      rw [List.append_assoc, List.getD_append_right _ _ _ _ (by omega)]
      simp [hl]
    have hset : ∀ c, (pre1 ++ [b] ++ suf).set j c = pre1 ++ [c] ++ suf := by
      intro c
      rw [List.append_assoc, List.set_append_right _ _ (by omega)]
      simp [hl]
    have hget2 : ∀ c, (pre1 ++ [c] ++ suf).getD j 0 = c := by
      intro c
      rw [List.append_assoc, List.getD_append_right _ _ _ _ (by omega)]
      simp [hl]
    rw [incFrom]
    simp only [hget, hset, hget2]
    rw [beBytes, beNat_snoc]
    by_cases hw : b = 255
    · subst hw
      have h1 : (beNat pre1 * 256 + 255 + 1) / 256 = beNat pre1 + 1 := by omega
      have h2 : (beNat pre1 * 256 + 255 + 1) % 256 = 0 := by omega
      rw [h1, h2]
      simp only [show (255 + 1) % 256 = 0 from rfl, gt_iff_lt, lt_self_iff_false, if_false]
      rw [List.append_assoc, ih pre1 ([0] ++ suf) hl hb.1, List.append_assoc]
    · have h0 : (b + 1) % 256 = b + 1 := Nat.mod_eq_of_lt (by omega)
      have h1 : (beNat pre1 * 256 + b + 1) / 256 = beNat pre1 := by omega
      have h2 : (beNat pre1 * 256 + b + 1) % 256 = b + 1 := by omega
      rw [h0, h1, h2, if_pos (by omega), ← hl, beBytes_beNat pre1 hb.1]

theorem inc_spec (ip : List Nat) (h : Bytes ip) :
    inc ip = beBytes ip.length (beNat ip + 1) := by
  have := incFrom_spec ip.length ip [] rfl h
  simpa [inc] using this

theorem inc_beBytes (n v : Nat) : inc (beBytes n v) = beBytes n (v + 1) := by
  rw [inc_spec _ (beBytes_bytes n v), beBytes_length, beNat_beBytes, ← beBytes_mod n (v + 1),
    ← beBytes_mod n (v % 256 ^ n + 1), Nat.add_mod, Nat.mod_mod, ← Nat.add_mod]

theorem inc_iterate (n v : Nat) : ∀ k, (inc^[k]) (beBytes n v) = beBytes n (v + k) := by
  intro k
  induction k with
  | zero => rfl
  | succ k ih => rw [Function.iterate_succ_apply', ih, inc_beBytes]; rfl


/-! ### Masks -/

theorem cidrMaskLoop_length (l : Nat) : ∀ n, (cidrMaskLoop l n).length = l := by
  induction l with
  | zero => intro n; rfl
  | succ l ih =>
    intro n
    rw [cidrMaskLoop]
    split <;> simp [ih]

theorem cidrMaskLoop_zero (l : Nat) : cidrMaskLoop l 0 = List.replicate l 0 := by
  induction l with
  | zero => rfl
  | succ l ih =>
    rw [cidrMaskLoop, if_neg (by omega), ih]
    rfl

set_option maxRecDepth 100000 in
theorem byte_land_mask : ∀ p < 8, ∀ x < 256,
    x &&& ((0xff >>> p) ^^^ 0xff) = x / 2 ^ (8 - p) * 2 ^ (8 - p) := by
  decide

set_option maxRecDepth 100000 in
theorem byte_land_ff : ∀ x < 256, x &&& 0xff = x := by
  decide

theorem zipWith_land_zero (x : List Nat) : ∀ l, x.length = l →
    List.zipWith (fun b m => b &&& m) x (List.replicate l 0) = List.replicate l 0 := by
  induction x with
  | nil => intro l h; rw [← h]; rfl
  | cons a x ih =>
    intro l h
    cases l with
    | zero => cases h
    | succ l =>
      rw [List.replicate_succ, List.zipWith_cons_cons, ih l (by simpa using h)]
      simp

theorem beNat_replicate_zero (l : Nat) : beNat (List.replicate l 0) = 0 := by
  induction l with
  | zero => rfl
  | succ l ih => rw [List.replicate_succ, beNat_cons, ih]; simp

theorem Bytes_zipWith_land (x m : List Nat) (h : Bytes x) :
    Bytes (List.zipWith (fun b m => b &&& m) x m) := by
  induction x generalizing m with
  | nil => simp [Bytes]
  | cons a x ih =>
    cases m with
    | nil => simp [Bytes]
    | cons c m =>
      rw [Bytes_cons] at h
      rw [List.zipWith_cons_cons, Bytes_cons]
      exact ⟨lt_of_le_of_lt Nat.and_le_left h.1, ih m h.2⟩

/-- Masking with the `p`-bit mask clears the low `8 * l - p` bits. -/
theorem beNat_land_mask (l : Nat) : ∀ (p : Nat) (x : List Nat), p ≤ 8 * l → x.length = l →
    Bytes x →
    beNat (List.zipWith (fun b m => b &&& m) x (cidrMaskLoop l p)) =
      beNat x / 2 ^ (8 * l - p) * 2 ^ (8 * l - p) := by
  induction l with
  | zero =>
    intro p x _ hlen _
    rw [List.length_eq_zero.1 hlen]
    simp [beNat]
  | succ l ih =>
    intro p x hp hlen hb
    cases x with
    | nil => cases hlen
    | cons a x =>
      rw [Bytes_cons] at hb
      have hl : x.length = l := by simpa using hlen
      have hx := beNat_lt x hb.2
      rw [hl] at hx
      have h256 : (256 : Nat) ^ l = 2 ^ (8 * l) := by
        rw [show (256 : Nat) = 2 ^ 8 from rfl, ← pow_mul]
      rw [cidrMaskLoop]
      by_cases h8 : p ≥ 8
      · rw [if_pos h8, List.zipWith_cons_cons, beNat_cons, beNat_cons, byte_land_ff a hb.1,
          ih (p - 8) x (by omega) hl hb.2, List.length_zipWith, cidrMaskLoop_length, hl,
          Nat.min_self, h256]
        have hh : 8 * (l + 1) - p = 8 * l - (p - 8) := by omega
        rw [hh]
        obtain ⟨d, hd⟩ : ∃ d, 8 * l = (8 * l - (p - 8)) + d := ⟨p - 8, by omega⟩
        generalize 8 * l - (p - 8) = h at hd ⊢
        rw [hd, pow_add]
        have hpos : 0 < 2 ^ h := Nat.two_pow_pos _
        rw [show a * (2 ^ h * 2 ^ d) + beNat x = beNat x + 2 ^ h * (a * 2 ^ d) by ring,
          Nat.add_mul_div_left _ _ hpos]
        ring
      · rw [if_neg h8, List.zipWith_cons_cons, beNat_cons, beNat_cons, cidrMaskLoop_zero,
          zipWith_land_zero x l hl, beNat_replicate_zero, List.length_replicate, hl,
          byte_land_mask p (by omega) a hb.1, h256]
        have hh : 8 * (l + 1) - p = 8 * l + (8 - p) := by omega
        rw [hh, pow_add, ← Nat.div_div_eq_div_mul]
        have hpos : 0 < 2 ^ (8 * l) := Nat.two_pow_pos _
        rw [show a * 2 ^ (8 * l) + beNat x = beNat x + 2 ^ (8 * l) * a by ring,
          Nat.add_mul_div_left _ _ hpos]
        have hz : beNat x / 2 ^ (8 * l) = 0 := Nat.div_eq_of_lt (by rw [← h256]; exact hx)
        rw [hz, Nat.zero_add, Nat.add_zero]
        ring

theorem cidrMaskLoop_split (a b : Nat) : ∀ p, 8 * a ≤ p →
    cidrMaskLoop (a + b) p = List.replicate a 0xff ++ cidrMaskLoop b (p - 8 * a) := by
  induction a with
  | zero => intro p _; simp
  | succ a ih =>
    intro p hp
    rw [show a + 1 + b = (a + b) + 1 by omega, cidrMaskLoop, if_pos (by omega),
      ih (p - 8) (by omega), List.replicate_succ, List.cons_append]
    congr 3
    omega

theorem cidrMaskLoop_inj (l : Nat) : ∀ p q, p ≤ 8 * l → q ≤ 8 * l →
    cidrMaskLoop l p = cidrMaskLoop l q → p = q := by
  induction l with
  | zero => intro p q hp hq _; omega
  | succ l ih =>
    intro p q hp hq h
    have hbyte : ∀ a < 8, ∀ b < 8, (0xff >>> a) ^^^ 0xff = (0xff >>> b) ^^^ 0xff → a = b := by
      decide
    have hbyte2 : ∀ a < 8, (0xff >>> a) ^^^ 0xff ≠ 0xff := by decide
    rw [cidrMaskLoop, cidrMaskLoop] at h
    by_cases h1 : p ≥ 8 <;> by_cases h2 : q ≥ 8
    · rw [if_pos h1, if_pos h2] at h
      have := ih (p - 8) (q - 8) (by omega) (by omega) (List.cons.inj h).2
      omega
    · rw [if_pos h1, if_neg h2] at h
      exact absurd (List.cons.inj h).1.symm (hbyte2 q (by omega))
    · rw [if_neg h1, if_pos h2] at h
      exact absurd (List.cons.inj h).1 (hbyte2 p (by omega))
    · rw [if_neg h1, if_neg h2] at h
      exact hbyte p (by omega) q (by omega) (List.cons.inj h).1

/-- The comparison loop of `Contains` is the equality of the masked slices. -/
theorem range_all_masked (nn x m : List Nat) : ∀ l, nn.length = l → x.length = l →
    m.length = l →
    ((List.range l).all
      (fun i => nn.getD i 0 &&& m.getD i 0 == x.getD i 0 &&& m.getD i 0) = true ↔
    List.zipWith (fun b m => b &&& m) nn m = List.zipWith (fun b m => b &&& m) x m) := by
  induction nn generalizing x m with
  | nil =>
    intro l h1 h2 _
    subst h1
    rw [List.length_eq_zero.1 h2]
    simp
  | cons a nn ih =>
    intro l h1 h2 h3
    cases l with
    | zero => cases h1
    | succ l =>
      cases x with
      | nil => cases h2
      | cons b x =>
        cases m with
        | nil => cases h3
        | cons c m =>
          have := ih x m l (by simpa using h1) (by simpa using h2) (by simpa using h3)
          rw [List.range_succ_eq_map, List.all_cons, List.all_map]
          simp only [List.zipWith_cons_cons, List.cons.injEq, Bool.and_eq_true, beq_iff_eq,
            List.getD_cons_zero, Function.comp_def, List.getD_cons_succ]
          rw [this]


/-! ### `To4` and the shape of a parsed network -/

theorem To4_of_length_16 (x : List Nat) (h : x.length = 16) :
    IP.To4 x = if x.take 12 = v4InV6Prefix then x.drop 12 else [] := by
  rcases x with _ | ⟨a0, _ | ⟨a1, _ | ⟨a2, _ | ⟨a3, _ | ⟨a4, _ | ⟨a5, _ | ⟨a6, _ | ⟨a7, _ | ⟨a8, _ | ⟨a9, _ | ⟨a10, _ | ⟨a11, _ | ⟨a12, _ | ⟨a13, _ | ⟨a14, _ | ⟨a15, _ | ⟨b, t⟩⟩⟩⟩⟩⟩⟩⟩⟩⟩⟩⟩⟩⟩⟩⟩⟩
  all_goals simp at h
  simp only [IP.To4, isZeros, v4InV6Prefix]
  simp
  by_cases hc : a0 = 0 ∧ a1 = 0 ∧ a2 = 0 ∧ a3 = 0 ∧ a4 = 0 ∧ a5 = 0 ∧ a6 = 0 ∧ a7 = 0 ∧
      a8 = 0 ∧ a9 = 0 ∧ a10 = 255 ∧ a11 = 255
  · obtain ⟨h0, h1, h2, h3, h4, h5, h6, h7, h8, h9, h10, h11⟩ := hc
    subst h0 h1 h2 h3 h4 h5 h6 h7 h8 h9 h10 h11
    simp
  · rw [if_neg (by tauto), if_neg hc]

theorem To4_of_length_4 (x : List Nat) (h : x.length = 4) : IP.To4 x = x := by
  simp [IP.To4, h]


theorem Bytes_set (l : List Nat) (i v : Nat) (h : Bytes l) (hv : v < 256) :
    Bytes (l.set i v) := by
  intro b hb
  rcases List.mem_or_eq_of_mem_set hb with h1 | h1
  · exact h b h1
  · rw [h1]; exact hv

theorem parseIPv4Loop_bytes (cs : List Char) : ∀ (prev : Option Char) (val pos digLen : Nat)
    (fields f : List Nat), val ≤ 255 → fields.length = 4 → Bytes fields →
    parseIPv4Loop cs prev val pos digLen fields = some f → f.length = 4 ∧ Bytes f := by
  induction cs with
  | nil =>
    intro prev val pos digLen fields f hv hl hb h
    rw [parseIPv4Loop] at h
    split at h
    · cases h
    · cases h
      exact ⟨by simp [hl], Bytes_set _ _ _ hb (by omega)⟩
  | cons c rest ih =>
    intro prev val pos digLen fields f hv hl hb h
    rw [parseIPv4Loop] at h
    split at h
    · split at h
      · cases h
      · split at h
        · cases h
        · exact ih _ _ _ _ _ _ (by omega) hl hb h
    · split at h
      · split at h
        · cases h
        · split at h
          · cases h
          · exact ih _ _ _ _ _ _ (by omega) (by simp [hl]) (Bytes_set _ _ _ hb (by omega)) h
      · cases h

theorem parseIPv6_is4 (s : List Char) (a : Addr) (h : parseIPv6 s = some a) : a.is4 = false := by
  unfold parseIPv6 at h
  simp only at h
  repeat' split at h
  all_goals first
    | contradiction
    | (simp only [Option.some.injEq] at h; rw [← h]; rfl)

theorem parseAddrScan_is4 (s : List Char) (cs : List Char) (a : Addr)
    (h : parseAddrScan s cs = some a) (h4 : a.is4 = true) :
    ∃ f, f.length = 4 ∧ Bytes f ∧ a.addr = 0xffff * 2 ^ 32 + beNat f := by
  induction cs with
  | nil => cases h
  | cons c rest ih =>
    rw [parseAddrScan] at h
    split at h
    · unfold parseIPv4 parseIPv4Fields at h
      cases hf : parseIPv4Loop s none 0 0 0 [0, 0, 0, 0] with
      | none => rw [hf] at h; cases h
      | some f =>
        rw [hf] at h
        cases h
        obtain ⟨h1, h2⟩ := parseIPv4Loop_bytes s none 0 0 0 [0, 0, 0, 0] f (by omega) rfl
          (by simp [Bytes]) hf
        exact ⟨f, h1, h2, rfl⟩
    · split at h
      · rw [parseIPv6_is4 s a h] at h4; cases h4
      · split at h
        · cases h
        · exact ih h

/-- What `ParseCIDR` hands to `Hosts`: the 16 bytes of an address, and the network made of
that address masked with the `p`-bit mask of the address family. -/
theorem ParseCIDR_ok (s : String) (ip : IP) (ipnet : IPNet)
    (h : ParseCIDR s = .ok (ip, ipnet)) :
    ∃ (a : Addr) (p : Nat), p ≤ a.BitLen ∧ ip = beBytes 16 a.addr ∧
      ipnet.Mask = CIDRMask p a.BitLen ∧ ipnet.IP = IP.Mask ip ipnet.Mask ∧
      (a.is4 = true → ∃ f, f.length = 4 ∧ Bytes f ∧ a.addr = 0xffff * 2 ^ 32 + beNat f) := by
  unfold ParseCIDR at h
  simp only at h
  split at h
  · cases h
  · split at h
    · cases h
    · rename_i a ha
      split at h
      · cases h
      · split at h
        · cases h
        · rename_i hd
          simp only [Except.ok.injEq, Prod.mk.injEq] at h
          obtain ⟨h1, h2⟩ := h
          subst h1 h2
          simp only [not_or, not_not, not_lt] at hd
          exact ⟨a, _, hd.2.2, rfl, rfl, rfl, fun h4 => parseAddrScan_is4 _ _ a ha h4⟩


theorem beBytes16_split (v : Nat) : beBytes 16 v = beBytes 12 (v / 2 ^ 32) ++ beBytes 4 v := by
  have := beBytes_append 12 4 v
  rw [show (256 : Nat) ^ 4 = 2 ^ 32 by norm_num] at this
  exact this

theorem beBytes16_take (v : Nat) : (beBytes 16 v).take 12 = beBytes 12 (v / 2 ^ 32) := by
  rw [beBytes16_split, List.take_left' (beBytes_length 12 _)]

theorem beBytes16_drop (v : Nat) : (beBytes 16 v).drop 12 = beBytes 4 v := by
  rw [beBytes16_split, List.drop_left' (beBytes_length 12 _)]

theorem beBytes12_eq_v4InV6Prefix (u : Nat) :
    beBytes 12 u = v4InV6Prefix ↔ u % 2 ^ 96 = 0xffff := by
  have h256 : (256 : Nat) ^ 12 = 2 ^ 96 := by norm_num
  constructor
  · intro h
    have := congrArg beNat h
    rw [beNat_beBytes, h256] at this
    rw [this]; rfl
  · intro h
    rw [← beBytes_mod, h256, h]; rfl

theorem To4_beBytes16 (v : Nat) :
    IP.To4 (beBytes 16 v) = if (v / 2 ^ 32) % 2 ^ 96 = 0xffff then beBytes 4 v else [] := by
  rw [To4_of_length_16 _ (beBytes_length 16 v), beBytes16_take, beBytes16_drop]
  simp only [beBytes12_eq_v4InV6Prefix]

/-- Comparing under the `p`-bit mask, as `Contains` does against a network number that is
itself a masked address, is comparing the leading `p` bits. -/
theorem masked_compare (L p : Nat) (a x : List Nat) (hp : p ≤ 8 * L) (ha : a.length = L)
    (hx : x.length = L) (hba : Bytes a) (hbx : Bytes x) :
    ((List.range L).all (fun i =>
        (List.zipWith (fun b m => b &&& m) a (cidrMaskLoop L p)).getD i 0 &&&
            (cidrMaskLoop L p).getD i 0 ==
          x.getD i 0 &&& (cidrMaskLoop L p).getD i 0) = true ↔
      beNat x / 2 ^ (8 * L - p) =
        beNat (List.zipWith (fun b m => b &&& m) a (cidrMaskLoop L p)) / 2 ^ (8 * L - p)) ∧
    beNat (List.zipWith (fun b m => b &&& m) a (cidrMaskLoop L p)) =
      beNat a / 2 ^ (8 * L - p) * 2 ^ (8 * L - p) := by
  have hT : 0 < 2 ^ (8 * L - p) := Nat.two_pow_pos _
  have hnn := beNat_land_mask L p a hp ha hba
  have hnnlen : (List.zipWith (fun b m => b &&& m) a (cidrMaskLoop L p)).length = L := by
    rw [List.length_zipWith, cidrMaskLoop_length, ha, Nat.min_self]
  have hnnb := Bytes_zipWith_land a (cidrMaskLoop L p) hba
  refine ⟨?_, hnn⟩
  rw [range_all_masked _ x (cidrMaskLoop L p) L hnnlen hx (cidrMaskLoop_length L p)]
  have hxm := beNat_land_mask L p x hp hx hbx
  have hnn2 := beNat_land_mask L p _ hp hnnlen hnnb
  rw [hnn, Nat.mul_div_cancel _ hT] at hnn2
  rw [hnn, Nat.mul_div_cancel _ hT]
  constructor
  · intro h
    have := congrArg beNat h
    rw [hnn2, hxm] at this
    exact (Nat.eq_of_mul_eq_mul_right hT this).symm
  · intro h
    apply beNat_inj _ _ (Bytes_zipWith_land _ _ hnnb) (Bytes_zipWith_land _ _ hbx)
    · simp only [List.length_zipWith, cidrMaskLoop_length, ha, hx, Nat.min_self]
    · rw [hnn2, hxm, h]

theorem ne_nil_of_length_eq {l : List Nat} {n : Nat} (h : l.length = n + 1) : l ≠ [] := by
  intro hc; rw [hc] at h; cases h

/-- `Contains` for an IPv4 network, on 4-byte addresses. -/
theorem Contains_v4 (p : Nat) (x4 : List Nat) (hp : p ≤ 32) (hlen : x4.length = 4)
    (hb : Bytes x4) (v : Nat) :
    (IPNet.Contains ⟨List.zipWith (fun b m => b &&& m) x4 (cidrMaskLoop 4 p), cidrMaskLoop 4 p⟩
        (beBytes 4 v) = true ↔
      (v % 2 ^ 32) / 2 ^ (32 - p) =
        beNat (List.zipWith (fun b m => b &&& m) x4 (cidrMaskLoop 4 p)) / 2 ^ (32 - p)) := by
  have hnnlen : (List.zipWith (fun b m => b &&& m) x4 (cidrMaskLoop 4 p)).length = 4 := by
    rw [List.length_zipWith, cidrMaskLoop_length, hlen]; rfl
  have hcmp := (masked_compare 4 p x4 (beBytes 4 v) (by omega) hlen (beBytes_length 4 v) hb
    (beBytes_bytes 4 v)).1
  rw [beNat_beBytes, show (256 : Nat) ^ 4 = 2 ^ 32 by norm_num,
    show 8 * 4 - p = 32 - p by omega] at hcmp
  rw [← hcmp]
  simp only [IPNet.Contains, networkNumberAndMask, To4_of_length_4 _ hnnlen,
    To4_of_length_4 _ (beBytes_length 4 v), ne_nil_of_length_eq hnnlen,
    ne_nil_of_length_eq (beBytes_length 4 v), hnnlen, beBytes_length, cidrMaskLoop_length,
    ne_eq, not_false_eq_true, if_true, false_and, if_false, not_true_eq_false]

theorem Contains_eq (n : IPNet) (ip : List Nat) (nn m ip1 : List Nat)
    (h1 : networkNumberAndMask n = (nn, m))
    (h2 : (if IP.To4 ip ≠ [] then IP.To4 ip else ip) = ip1) :
    IPNet.Contains n ip =
      if ip1.length ≠ nn.length then false
      else (List.range ip1.length).all
        (fun i => nn.getD i 0 &&& m.getD i 0 == ip1.getD i 0 &&& m.getD i 0) := by
  unfold IPNet.Contains
  simp only [h1, h2]

theorem networkNumberAndMask_v6 (nn m : List Nat) (h4 : IP.To4 nn = []) (hn : nn.length = 16)
    (hm : m.length = 16) : networkNumberAndMask ⟨nn, m⟩ = (nn, m) := by
  simp [networkNumberAndMask, h4, hn, hm]

theorem networkNumberAndMask_v4mapped (nn m : List Nat) (h4 : (IP.To4 nn).length = 4)
    (hm : m.length = 16) : networkNumberAndMask ⟨nn, m⟩ = (IP.To4 nn, m.drop 12) := by
  have hne : IP.To4 nn ≠ [] := ne_nil_of_length_eq h4
  simp [networkNumberAndMask, h4, hm, hne]

/-- `Contains` for an IPv6 network whose number is not an IPv4-mapped address. -/
theorem Contains_v6 (p : Nat) (x : List Nat) (hp : p ≤ 128) (hlen : x.length = 16)
    (hb : Bytes x)
    (hnot : IP.To4 (List.zipWith (fun b m => b &&& m) x (cidrMaskLoop 16 p)) = []) (v : Nat) :
    (IPNet.Contains ⟨List.zipWith (fun b m => b &&& m) x (cidrMaskLoop 16 p), cidrMaskLoop 16 p⟩
        (beBytes 16 v) = true ↔
      (v / 2 ^ 32) % 2 ^ 96 ≠ 0xffff ∧
      (v % 2 ^ 128) / 2 ^ (128 - p) =
        beNat (List.zipWith (fun b m => b &&& m) x (cidrMaskLoop 16 p)) / 2 ^ (128 - p)) := by
  have hnnlen : (List.zipWith (fun b m => b &&& m) x (cidrMaskLoop 16 p)).length = 16 := by
    rw [List.length_zipWith, cidrMaskLoop_length, hlen]; rfl
  have hcmp := (masked_compare 16 p x (beBytes 16 v) (by omega) hlen (beBytes_length 16 v) hb
    (beBytes_bytes 16 v)).1
  rw [beNat_beBytes, show (256 : Nat) ^ 16 = 2 ^ 128 by norm_num,
    show 8 * 16 - p = 128 - p by omega] at hcmp
  rw [← hcmp]
  have hnm := networkNumberAndMask_v6 _ _ hnot hnnlen (cidrMaskLoop_length 16 p)
  by_cases hv : (v / 2 ^ 32) % 2 ^ 96 = 0xffff
  · have h4 : IP.To4 (beBytes 16 v) = beBytes 4 v := by rw [To4_beBytes16, if_pos hv]
    rw [Contains_eq _ _ _ _ (beBytes 4 v) hnm
      (by rw [h4, if_pos (ne_nil_of_length_eq (beBytes_length 4 v))]),
      if_pos (by rw [beBytes_length, hnnlen]; omega)]
    exact ⟨fun h => (by cases h), fun h => absurd hv h.1⟩
  · have h4 : IP.To4 (beBytes 16 v) = [] := by rw [To4_beBytes16, if_neg hv]
    rw [Contains_eq _ _ _ _ (beBytes 16 v) hnm (by rw [h4]; simp),
      if_neg (by rw [beBytes_length, hnnlen]; omega), beBytes_length]
    simp only [ne_eq, hv, not_false_eq_true, true_and]

/-- `Contains` for an IPv6 network whose number is an IPv4-mapped address: the comparison is
made on the 4-byte forms, with the last 4 bytes of the mask. -/
theorem Contains_v4mapped (p : Nat) (x : List Nat) (hp : p ≤ 128) (hp96 : 96 ≤ p)
    (hlen : x.length = 16) (hb : Bytes x)
    (hmap : (List.zipWith (fun b m => b &&& m) x (cidrMaskLoop 16 p)).take 12 = v4InV6Prefix)
    (v : Nat) :
    (IPNet.Contains ⟨List.zipWith (fun b m => b &&& m) x (cidrMaskLoop 16 p), cidrMaskLoop 16 p⟩
        (beBytes 16 v) = true ↔
      (v / 2 ^ 32) % 2 ^ 96 = 0xffff ∧
      (v % 2 ^ 32) / 2 ^ (128 - p) =
        beNat (List.zipWith (fun b m => b &&& m) (x.drop 12) (cidrMaskLoop 4 (p - 96))) /
          2 ^ (128 - p)) := by
  have hnnlen : (List.zipWith (fun b m => b &&& m) x (cidrMaskLoop 16 p)).length = 16 := by
    rw [List.length_zipWith, cidrMaskLoop_length, hlen]; rfl
  have hmask : (cidrMaskLoop 16 p).drop 12 = cidrMaskLoop 4 (p - 96) := by
    rw [show (16 : Nat) = 12 + 4 from rfl, cidrMaskLoop_split 12 4 p (by omega),
      List.drop_left' (List.length_replicate _ _)]
  have hnn4 : (List.zipWith (fun b m => b &&& m) x (cidrMaskLoop 16 p)).drop 12 =
      List.zipWith (fun b m => b &&& m) (x.drop 12) (cidrMaskLoop 4 (p - 96)) := by
    rw [List.drop_zipWith, hmask]
  have hx4len : (x.drop 12).length = 4 := by rw [List.length_drop, hlen]
  have hx4b : Bytes (x.drop 12) := fun b hb1 => hb b (List.mem_of_mem_drop hb1)
  have hnn4len : (List.zipWith (fun b m => b &&& m) (x.drop 12)
      (cidrMaskLoop 4 (p - 96))).length = 4 := by
    rw [List.length_zipWith, cidrMaskLoop_length, hx4len]; rfl
  have hto4 : IP.To4 (List.zipWith (fun b m => b &&& m) x (cidrMaskLoop 16 p)) =
      List.zipWith (fun b m => b &&& m) (x.drop 12) (cidrMaskLoop 4 (p - 96)) := by
    rw [To4_of_length_16 _ hnnlen, if_pos hmap, hnn4]
  have hcmp := (masked_compare 4 (p - 96) (x.drop 12) (beBytes 4 v) (by omega) hx4len
    (beBytes_length 4 v) hx4b (beBytes_bytes 4 v)).1
  rw [beNat_beBytes, show (256 : Nat) ^ 4 = 2 ^ 32 by norm_num,
    show 8 * 4 - (p - 96) = 128 - p by omega] at hcmp
  rw [← hcmp]
  have hnm := networkNumberAndMask_v4mapped _ _ (by rw [hto4]; exact hnn4len)
    (cidrMaskLoop_length 16 p)
  rw [hto4, hmask] at hnm
  by_cases hv : (v / 2 ^ 32) % 2 ^ 96 = 0xffff
  · have h4 : IP.To4 (beBytes 16 v) = beBytes 4 v := by rw [To4_beBytes16, if_pos hv]
    rw [Contains_eq _ _ _ _ (beBytes 4 v) hnm
      (by rw [h4, if_pos (ne_nil_of_length_eq (beBytes_length 4 v))]),
      if_neg (by rw [beBytes_length, hnn4len]; omega), beBytes_length]
    simp only [hv, true_and]
  · have h4 : IP.To4 (beBytes 16 v) = [] := by rw [To4_beBytes16, if_neg hv]
    rw [Contains_eq _ _ _ _ (beBytes 16 v) hnm (by rw [h4]; simp),
      if_pos (by rw [beBytes_length, hnn4len]; omega)]
    exact ⟨fun h => (by cases h), fun h => absurd h.1 hv⟩

/-! ### The enumeration loop, step by step -/

/-- A loop that finds the first `n` addresses in the network and the next one outside stops
after `n` rounds, provided the budget allows `n + 1` tests of the condition. -/
theorem hostsLoop_stop (ipnet : IPNet) (n : Nat) : ∀ (fuel : Nat) (ip : IP) (acc : List String),
    (∀ k < n, IPNet.Contains ipnet (inc^[k] ip) = true) →
    IPNet.Contains ipnet (inc^[n] ip) = false →
    hostsLoop ipnet fuel ip acc =
      if n < fuel then some (acc ++ (List.range n).map (fun k => IP.String (inc^[k] ip)))
      else none := by
  induction n with
  | zero =>
    intro fuel ip acc _ hout
    cases fuel with
    | zero => rfl
    | succ fuel =>
      rw [hostsLoop, if_neg (by simpa using hout)]
      simp
  | succ n ih =>
    intro fuel ip acc hin hout
    cases fuel with
    | zero => rfl
    | succ fuel =>
      have h0 : IPNet.Contains ipnet ip = true := hin 0 (Nat.succ_pos n)
      rw [hostsLoop, if_pos h0, ih fuel (inc ip) (acc ++ [IP.String ip])
        (fun k hk => by
          have := hin (k + 1) (Nat.succ_lt_succ hk)
          rwa [Function.iterate_succ_apply] at this)
        (by rwa [Function.iterate_succ_apply] at hout)]
      by_cases hf : n < fuel
      · rw [if_pos hf, if_pos (Nat.succ_lt_succ hf), List.range_succ_eq_map, List.map_cons,
          List.map_map, List.append_assoc]
        rfl
      · rw [if_neg hf, if_neg (by omega)]

/-- A loop whose every address is in the network exhausts any budget. -/
theorem hostsLoop_forever (ipnet : IPNet) : ∀ (fuel : Nat) (ip : IP) (acc : List String),
    (∀ k, IPNet.Contains ipnet (inc^[k] ip) = true) → hostsLoop ipnet fuel ip acc = none := by
  intro fuel
  induction fuel with
  | zero => intro ip acc _; rfl
  | succ fuel ih =>
    intro ip acc h
    have h0 : IPNet.Contains ipnet ip = true := h 0
    rw [hostsLoop, if_pos h0]
    exact ih (inc ip) _ (fun k => by
      have := h (k + 1)
      rwa [Function.iterate_succ_apply] at this)

theorem hostsLoop_never (ipnet : IPNet) (L N : Nat)
    (hin : ∀ k, IPNet.Contains ipnet (beBytes L (N + k)) = true) (fuel : Nat) :
    hostsLoop ipnet fuel (beBytes L N) [] = none :=
  hostsLoop_forever ipnet fuel _ _ (fun k => by rw [inc_iterate]; exact hin k)

/-! ### Arithmetic of aligned blocks -/

theorem two_pow_split {h W : Nat} (hh : h ≤ W) : 2 ^ W = 2 ^ h * 2 ^ (W - h) := by
  rw [← pow_add]; congr 1; omega

/-- Inside the block: the first `2 ^ h` numbers from an aligned start share its leading bits. -/
theorem block_inside (W h N k : Nat) (hh : h ≤ W) (hN : N < 2 ^ W) (hal : N % 2 ^ h = 0)
    (hk : k < 2 ^ h) : N + k < 2 ^ W ∧ (N + k) / 2 ^ h = N / 2 ^ h := by
  have hT : 0 < 2 ^ h := Nat.two_pow_pos h
  have hS := two_pow_split hh
  have hq : N = N / 2 ^ h * 2 ^ h := by
    have := Nat.div_add_mod N (2 ^ h)
    rw [hal, Nat.add_zero, Nat.mul_comm] at this
    exact this.symm
  have hdiv : (N + k) / 2 ^ h = N / 2 ^ h := by
    rw [show N + k = k + N / 2 ^ h * 2 ^ h by omega, Nat.add_mul_div_right _ _ hT,
      Nat.div_eq_of_lt hk, Nat.zero_add]
  refine ⟨?_, hdiv⟩
  have hlt : N / 2 ^ h < 2 ^ (W - h) := by
    rw [Nat.div_lt_iff_lt_mul hT, Nat.mul_comm, ← hS]; exact hN
  have : (N / 2 ^ h + 1) * 2 ^ h ≤ 2 ^ (W - h) * 2 ^ h := Nat.mul_le_mul_right _ hlt
  rw [hS, Nat.mul_comm (2 ^ h)]
  have h2 : (N / 2 ^ h + 1) * 2 ^ h = N / 2 ^ h * 2 ^ h + 2 ^ h := by ring
  omega

/-- Just past the block: the leading bits differ, also when the number wraps to zero. -/
theorem block_after (W h N : Nat) (hh : h < W) (hN : N < 2 ^ W) (hal : N % 2 ^ h = 0) :
    ((N + 2 ^ h) % 2 ^ W) / 2 ^ h ≠ N / 2 ^ h := by
  have hT : 0 < 2 ^ h := Nat.two_pow_pos h
  have hS := two_pow_split (Nat.le_of_lt hh)
  have hq : N = N / 2 ^ h * 2 ^ h := by
    have := Nat.div_add_mod N (2 ^ h)
    rw [hal, Nat.add_zero, Nat.mul_comm] at this
    exact this.symm
  have hlt : N / 2 ^ h < 2 ^ (W - h) := by
    rw [Nat.div_lt_iff_lt_mul hT, Nat.mul_comm, ← hS]; exact hN
  have hS2 : 2 ≤ 2 ^ (W - h) := by
    have : 2 ^ 1 ≤ 2 ^ (W - h) := Nat.pow_le_pow_right (by norm_num) (by omega)
    simpa using this
  have hnext : (N + 2 ^ h) / 2 ^ h = N / 2 ^ h + 1 := by
    rw [show N + 2 ^ h = N + 1 * 2 ^ h by ring, Nat.add_mul_div_right _ _ hT]
  by_cases hw : N / 2 ^ h + 1 < 2 ^ (W - h)
  · have hlt2 : N + 2 ^ h < 2 ^ W := by
      have : (N / 2 ^ h + 1 + 1) * 2 ^ h ≤ 2 ^ (W - h) * 2 ^ h := Nat.mul_le_mul_right _ hw
      rw [hS, Nat.mul_comm (2 ^ h)]
      have h2 : (N / 2 ^ h + 1 + 1) * 2 ^ h = N / 2 ^ h * 2 ^ h + 2 ^ h + 2 ^ h := by ring
      omega
    rw [Nat.mod_eq_of_lt hlt2, hnext]; omega
  · have heq : N / 2 ^ h + 1 = 2 ^ (W - h) := by omega
    have hfull : N + 2 ^ h = 2 ^ W := by
      rw [hS, ← heq]
      have h2 : 2 ^ h * (N / 2 ^ h + 1) = N / 2 ^ h * 2 ^ h + 2 ^ h := by ring
      omega
    rw [hfull, Nat.mod_self, Nat.zero_div]; omega

/-- The block that is the whole address space contains every number. -/
theorem block_everything (W N k : Nat) (hN : N < 2 ^ W) :
    ((N + k) % 2 ^ W) / 2 ^ W = N / 2 ^ W := by
  rw [Nat.div_eq_of_lt (Nat.mod_lt _ (Nat.two_pow_pos W)), Nat.div_eq_of_lt hN]


theorem stopsAfter_of_count (ipnet : IPNet) (L N n : Nat)
    (hin : ∀ k < n, IPNet.Contains ipnet (beBytes L (N + k)) = true)
    (hout : ¬ IPNet.Contains ipnet (beBytes L (N + n)) = true) :
    stopsAfter ipnet (beBytes L N) n := by
  intro fuel
  rw [hostsLoop_stop ipnet n fuel (beBytes L N) []
    (fun k hk => by rw [inc_iterate]; exact hin k hk)
    (by rw [inc_iterate]; simpa using hout)]
  simp only [List.nil_append]

theorem aligned_of_eq {N x h : Nat} (hN : N = x / 2 ^ h * 2 ^ h) : N % 2 ^ h = 0 := by
  rw [hN]; exact Nat.mul_mod_left _ _

/-- IPv4 network: the loop visits the `2 ^ (32 - p)` addresses of the block and stops, unless
`p = 0`, when it never stops. -/
theorem hostsLoop_v4 (p : Nat) (x4 : List Nat) (hp : p ≤ 32) (hlen : x4.length = 4)
    (hb : Bytes x4) :
    (1 ≤ p → stopsAfter
      ⟨List.zipWith (fun b m => b &&& m) x4 (cidrMaskLoop 4 p), cidrMaskLoop 4 p⟩
      (List.zipWith (fun b m => b &&& m) x4 (cidrMaskLoop 4 p)) (2 ^ (32 - p))) ∧
    (p = 0 → ∀ fuel, hostsLoop
      ⟨List.zipWith (fun b m => b &&& m) x4 (cidrMaskLoop 4 p), cidrMaskLoop 4 p⟩ fuel
      (List.zipWith (fun b m => b &&& m) x4 (cidrMaskLoop 4 p)) [] = none) := by
  have hnnlen : (List.zipWith (fun b m => b &&& m) x4 (cidrMaskLoop 4 p)).length = 4 := by
    rw [List.length_zipWith, cidrMaskLoop_length, hlen]; rfl
  have hnnb := Bytes_zipWith_land x4 (cidrMaskLoop 4 p) hb
  have hN := beNat_land_mask 4 p x4 (by omega) hlen hb
  rw [show 8 * 4 - p = 32 - p by omega] at hN
  have hal := aligned_of_eq hN
  have hlt := beNat_lt _ hnnb
  rw [hnnlen, show (256 : Nat) ^ 4 = 2 ^ 32 by norm_num] at hlt
  have hstart := beBytes_beNat _ hnnb
  rw [hnnlen] at hstart
  generalize hNdef : beNat (List.zipWith (fun b m => b &&& m) x4 (cidrMaskLoop 4 p)) = N
    at hN hal hlt hstart
  have hC := fun v => Contains_v4 p x4 hp hlen hb v
  simp only [hNdef] at hC
  constructor
  · intro hp1
    have key := stopsAfter_of_count
      ⟨List.zipWith (fun b m => b &&& m) x4 (cidrMaskLoop 4 p), cidrMaskLoop 4 p⟩ 4 N
      (2 ^ (32 - p))
      (fun k hk => by
        obtain ⟨h1, h2⟩ := block_inside 32 (32 - p) N k (by omega) hlt hal hk
        rw [hC, Nat.mod_eq_of_lt h1, h2])
      (by rw [hC]; exact block_after 32 (32 - p) N (by omega) hlt hal)
    rwa [hstart] at key
  · intro hp0 fuel
    have key := hostsLoop_never
      ⟨List.zipWith (fun b m => b &&& m) x4 (cidrMaskLoop 4 p), cidrMaskLoop 4 p⟩ 4 N
      (fun k => by
        rw [hC, hp0]
        exact block_everything 32 N k hlt) fuel
    rwa [hstart] at key
theorem two_pow_32 : (2 : Nat) ^ 32 = 4294967296 := by norm_num

theorem two_pow_96 : (2 : Nat) ^ 96 = 79228162514264337593543950336 := by norm_num

theorem two_pow_128 : (2 : Nat) ^ 128 = 340282366920938463463374607431768211456 := by norm_num

/-- An aligned block of at most `2 ^ 32` addresses lies inside one `/96`. -/
theorem same_high_of_small_block (h N v : Nat) (hh : h ≤ 32)
    (hdiv : v / 2 ^ h = N / 2 ^ h) : v / 2 ^ 32 = N / 2 ^ 32 := by
  rw [two_pow_split hh, ← Nat.div_div_eq_div_mul, ← Nat.div_div_eq_div_mul, hdiv]

/-- An aligned block of more than `2 ^ 32` addresses that holds an IPv4-mapped address holds
`::ffff:0:0`. -/
theorem base_in_large_block (h N v : Nat) (hh : 32 < h) (hal : N % 2 ^ h = 0)
    (hdiv : v / 2 ^ h = N / 2 ^ h) (hv : v / 2 ^ 32 = 0xffff) :
    N ≤ v4MappedBase ∧ v4MappedBase < N + 2 ^ h := by
  have hT : 0 < 2 ^ h := Nat.two_pow_pos h
  have hsplit : (2 : Nat) ^ h = 2 ^ 32 * 2 ^ (h - 32) := two_pow_split (Nat.le_of_lt hh)
  have hbase : v4MappedBase / 2 ^ 32 = 0xffff := by
    unfold v4MappedBase
    exact Nat.mul_div_cancel _ (Nat.two_pow_pos 32)
  have hq : v4MappedBase / 2 ^ h = N / 2 ^ h := by
    rw [← hdiv, hsplit, ← Nat.div_div_eq_div_mul, ← Nat.div_div_eq_div_mul, hbase, hv]
  have hN : N = N / 2 ^ h * 2 ^ h := by
    have := Nat.div_add_mod N (2 ^ h)
    rw [hal, Nat.add_zero, Nat.mul_comm] at this
    exact this.symm
  have h1 := Nat.div_mul_le_self v4MappedBase (2 ^ h)
  have h2 := Nat.lt_mul_div_succ v4MappedBase hT
  rw [hq] at h1 h2
  have h3 : 2 ^ h * (N / 2 ^ h + 1) = N / 2 ^ h * 2 ^ h + 2 ^ h := by ring
  constructor <;> omega

/-- IPv6 network: the loop always stops. It visits the `2 ^ (128 - p)` addresses of the
block, except when the network number is not IPv4-mapped and the block holds `::ffff:0:0`:
then it stops there. -/
theorem hostsLoop_v6 (p : Nat) (x : List Nat) (hp : p ≤ 128) (hlen : x.length = 16)
    (hb : Bytes x) :
    stopsAfter ⟨List.zipWith (fun b m => b &&& m) x (cidrMaskLoop 16 p), cidrMaskLoop 16 p⟩
      (List.zipWith (fun b m => b &&& m) x (cidrMaskLoop 16 p))
      (if IP.To4 (List.zipWith (fun b m => b &&& m) x (cidrMaskLoop 16 p)) = [] ∧
          beNat (List.zipWith (fun b m => b &&& m) x (cidrMaskLoop 16 p)) ≤ v4MappedBase ∧
          v4MappedBase <
            beNat (List.zipWith (fun b m => b &&& m) x (cidrMaskLoop 16 p)) + 2 ^ (128 - p)
        then v4MappedBase - beNat (List.zipWith (fun b m => b &&& m) x (cidrMaskLoop 16 p))
        else 2 ^ (128 - p)) := by
  have hnnlen : (List.zipWith (fun b m => b &&& m) x (cidrMaskLoop 16 p)).length = 16 := by
    rw [List.length_zipWith, cidrMaskLoop_length, hlen]; rfl
  have hnnb := Bytes_zipWith_land x (cidrMaskLoop 16 p) hb
  have hN := beNat_land_mask 16 p x (by omega) hlen hb
  rw [show 8 * 16 - p = 128 - p by omega] at hN
  have hal := aligned_of_eq hN
  have hlt := beNat_lt _ hnnb
  rw [hnnlen, show (256 : Nat) ^ 16 = 2 ^ 128 by norm_num] at hlt
  have hstart := beBytes_beNat _ hnnb
  rw [hnnlen] at hstart
  have hto4 := To4_of_length_16 _ hnnlen
  have htake : (List.zipWith (fun b m => b &&& m) x (cidrMaskLoop 16 p)).take 12 =
      v4InV6Prefix ↔
      (beNat (List.zipWith (fun b m => b &&& m) x (cidrMaskLoop 16 p)) / 2 ^ 32) % 2 ^ 96 =
        0xffff := by
    rw [← beBytes12_eq_v4InV6Prefix, ← beBytes16_take, hstart]
  have hB := base_in_large_block
  unfold v4MappedBase at hB ⊢
  by_cases hmap : (List.zipWith (fun b m => b &&& m) x (cidrMaskLoop 16 p)).take 12 =
      v4InV6Prefix
  · -- the network number is IPv4-mapped
    have hne : IP.To4 (List.zipWith (fun b m => b &&& m) x (cidrMaskLoop 16 p)) ≠ [] := by
      rw [hto4, if_pos hmap]
      exact ne_nil_of_length_eq (n := 3) (by rw [List.length_drop, hnnlen])
    rw [if_neg (fun hc => hne hc.1)]
    have hmapN := htake.1 hmap
    have hp96 : 96 ≤ p := by
      by_contra hcon
      have hsplit : (2 : Nat) ^ (128 - p) = 2 ^ 32 * (2 ^ (128 - p - 33) * 2) := by
        rw [← pow_succ, ← pow_add]; congr 1; omega
      rw [hN, hsplit, ← Nat.mul_assoc, Nat.mul_comm _ (2 ^ 32), Nat.mul_assoc,
        Nat.mul_div_cancel_left _ (Nat.two_pow_pos 32), ← Nat.mul_assoc] at hmapN
      rw [two_pow_96] at hmapN
      omega
    have hC := fun v => Contains_v4mapped p x hp hp96 hlen hb hmap v
    have hx4len : (x.drop 12).length = 4 := by rw [List.length_drop, hlen]
    have hx4b : Bytes (x.drop 12) := fun b hb1 => hb b (List.mem_of_mem_drop hb1)
    have hnn4b := Bytes_zipWith_land (x.drop 12) (cidrMaskLoop 4 (p - 96)) hx4b
    have hnn4len : (List.zipWith (fun b m => b &&& m) (x.drop 12)
        (cidrMaskLoop 4 (p - 96))).length = 4 := by
      rw [List.length_zipWith, cidrMaskLoop_length, hx4len]; rfl
    have hN4 := beNat_land_mask 4 (p - 96) (x.drop 12) (by omega) hx4len hx4b
    rw [show 8 * 4 - (p - 96) = 128 - p by omega] at hN4
    have hal4 := aligned_of_eq hN4
    have hlt4 := beNat_lt _ hnn4b
    rw [hnn4len, show (256 : Nat) ^ 4 = 2 ^ 32 by norm_num] at hlt4
    have hmask : (cidrMaskLoop 16 p).drop 12 = cidrMaskLoop 4 (p - 96) := by
      rw [show (16 : Nat) = 12 + 4 from rfl, cidrMaskLoop_split 12 4 p (by omega),
        List.drop_left' (List.length_replicate _ _)]
    have hsum : beNat (List.zipWith (fun b m => b &&& m) x (cidrMaskLoop 16 p)) =
        0xffff * 2 ^ 32 + beNat (List.zipWith (fun b m => b &&& m) (x.drop 12)
          (cidrMaskLoop 4 (p - 96))) := by
      conv_lhs => rw [← List.take_append_drop 12
        (List.zipWith (fun b m => b &&& m) x (cidrMaskLoop 16 p))]
      rw [beNat_append, hmap, List.drop_zipWith, hmask, hnn4len]
      rfl
    generalize hN4def : beNat (List.zipWith (fun b m => b &&& m) (x.drop 12)
      (cidrMaskLoop 4 (p - 96))) = N4 at hN4 hal4 hlt4 hsum hC
    generalize hNdef : beNat (List.zipWith (fun b m => b &&& m) x (cidrMaskLoop 16 p)) = N
      at hN hal hlt hstart hsum hmapN
    have key := stopsAfter_of_count
      ⟨List.zipWith (fun b m => b &&& m) x (cidrMaskLoop 16 p), cidrMaskLoop 16 p⟩ 16 N
      (2 ^ (128 - p))
      (fun k hk => by
        obtain ⟨h1, h2⟩ := block_inside 32 (128 - p) N4 k (by omega) hlt4 hal4 hk
        rw [hC, ← h2]
        rw [two_pow_32] at h1 hsum ⊢
        rw [two_pow_96]
        have e1 : (N + k) / 4294967296 = 65535 := by omega
        have e2 : (N + k) % 4294967296 = N4 + k := by omega
        rw [e1, e2]
        exact ⟨by norm_num, rfl⟩)
      (by
        rw [hC]
        rintro ⟨h1, h2⟩
        by_cases h32 : 128 - p < 32
        · have := block_after 32 (128 - p) N4 h32 hlt4 hal4
          apply this
          rw [← h2]
          congr 1
          rw [two_pow_32] at hsum ⊢
          omega
        · have he : 128 - p = 32 := by omega
          rw [he] at hal4 h1
          rw [two_pow_32] at hal4 hlt4 hsum h1
          rw [two_pow_96] at h1
          omega)
    rwa [hstart] at key
  · -- the network number is a plain IPv6 address
    have hnot : IP.To4 (List.zipWith (fun b m => b &&& m) x (cidrMaskLoop 16 p)) = [] := by
      rw [hto4, if_neg hmap]
    have hnotN := fun hc => hmap (htake.2 hc)
    have hC := fun v => Contains_v6 p x hp hlen hb hnot v
    simp only [hnot, true_and]
    generalize hNdef : beNat (List.zipWith (fun b m => b &&& m) x (cidrMaskLoop 16 p)) = N
      at hN hal hlt hstart hnotN hC
    by_cases hbase : N ≤ 0xffff * 2 ^ 32 ∧ 0xffff * 2 ^ 32 < N + 2 ^ (128 - p)
    · rw [if_pos hbase]
      have key := stopsAfter_of_count
        ⟨List.zipWith (fun b m => b &&& m) x (cidrMaskLoop 16 p), cidrMaskLoop 16 p⟩ 16 N
        (0xffff * 2 ^ 32 - N)
        (fun k hk => by
          have hk2 : k < 2 ^ (128 - p) := by omega
          obtain ⟨h1, h2⟩ := block_inside 128 (128 - p) N k (by omega) hlt hal hk2
          rw [hC, Nat.mod_eq_of_lt h1, h2]
          refine ⟨?_, rfl⟩
          rw [two_pow_32] at hk ⊢
          rw [two_pow_96]
          omega)
        (by
          rw [hC]
          rintro ⟨h1, -⟩
          apply h1
          rw [show N + (0xffff * 2 ^ 32 - N) = 0xffff * 2 ^ 32 by omega]
          norm_num)
      rwa [hstart] at key
    · rw [if_neg hbase]
      have hlt128 : 128 - p < 128 := by
        by_contra hcon
        have he : 128 - p = 128 := by omega
        rw [he] at hal hbase
        have h0 : N = 0 := by
          rw [Nat.mod_eq_of_lt hlt] at hal
          exact hal
        apply hbase
        rw [h0, two_pow_32, two_pow_128]
        omega
      have key := stopsAfter_of_count
        ⟨List.zipWith (fun b m => b &&& m) x (cidrMaskLoop 16 p), cidrMaskLoop 16 p⟩ 16 N
        (2 ^ (128 - p))
        (fun k hk => by
          obtain ⟨h1, h2⟩ := block_inside 128 (128 - p) N k (by omega) hlt hal hk
          rw [hC, Nat.mod_eq_of_lt h1, h2]
          refine ⟨?_, rfl⟩
          intro hv
          have hv2 : (N + k) / 2 ^ 32 = 0xffff := by
            rw [two_pow_32, two_pow_96] at hv
            rw [two_pow_128] at h1
            rw [two_pow_32]
            omega
          by_cases h32 : 128 - p ≤ 32
          · have := same_high_of_small_block (128 - p) N (N + k) h32 h2
            apply hnotN
            rw [← this, hv2]
            norm_num
          · exact hbase (hB (128 - p) N (N + k) (by omega) hal h2 hv2))
        (by
          rw [hC]
          rintro ⟨-, h2⟩
          exact block_after 128 (128 - p) N hlt128 hlt hal h2)
      rwa [hstart] at key
theorem CIDRMask_32 (p : Nat) (hp : p ≤ 32) : CIDRMask p 32 = cidrMaskLoop 4 p := by
  simp [CIDRMask, Nat.not_lt.2 hp]

theorem CIDRMask_128 (p : Nat) (hp : p ≤ 128) : CIDRMask p 128 = cidrMaskLoop 16 p := by
  simp [CIDRMask, Nat.not_lt.2 hp]

theorem CIDRMask_inj (p W q V : Nat) (hW : W = 32 ∨ W = 128) (hV : V = 32 ∨ V = 128)
    (hp : p ≤ W) (hq : q ≤ V) (h : CIDRMask p W = CIDRMask q V) : W = V ∧ p = q := by
  rcases hW with rfl | rfl <;> rcases hV with rfl | rfl
  · rw [CIDRMask_32 p hp, CIDRMask_32 q hq] at h
    exact ⟨rfl, cidrMaskLoop_inj 4 p q (by omega) (by omega) h⟩
  · rw [CIDRMask_32 p hp, CIDRMask_128 q hq] at h
    have := congrArg List.length h
    rw [cidrMaskLoop_length, cidrMaskLoop_length] at this
    omega
  · rw [CIDRMask_128 p hp, CIDRMask_32 q hq] at h
    have := congrArg List.length h
    rw [cidrMaskLoop_length, cidrMaskLoop_length] at this
    omega
  · rw [CIDRMask_128 p hp, CIDRMask_128 q hq] at h
    exact ⟨rfl, cidrMaskLoop_inj 16 p q (by omega) (by omega) h⟩

/-- `IP.Mask` of the 16-byte form of an IPv4 address with a 4-byte mask works on the last
four bytes. -/
theorem Mask_v4 (X F p : Nat) (hX : X = 0xffff * 2 ^ 32 + F) (hF : F < 2 ^ 32) :
    IP.Mask (beBytes 16 X) (cidrMaskLoop 4 p) =
      List.zipWith (fun b m => b &&& m) (beBytes 4 F) (cidrMaskLoop 4 p) := by
  have htake : (beBytes 16 X).take 12 = v4InV6Prefix := by
    rw [beBytes16_take, beBytes12_eq_v4InV6Prefix]
    rw [two_pow_32] at hF hX ⊢
    rw [two_pow_96]
    omega
  have hdrop : (beBytes 16 X).drop 12 = beBytes 4 F := by
    rw [beBytes16_drop, ← beBytes_mod 4 X]
    congr 1
    rw [show (256 : Nat) ^ 4 = 4294967296 by norm_num]
    rw [two_pow_32] at hF hX
    omega
  unfold IP.Mask
  simp [cidrMaskLoop_length, beBytes_length, htake, hdrop]

theorem Mask_v6 (X p : Nat) :
    IP.Mask (beBytes 16 X) (cidrMaskLoop 16 p) =
      List.zipWith (fun b m => b &&& m) (beBytes 16 X) (cidrMaskLoop 16 p) := by
  unfold IP.Mask
  simp [cidrMaskLoop_length, beBytes_length]

/-- The enumeration loop of `Hosts` on any parsed CIDR. -/
theorem Hosts_enumeration (s : String) (ip : IP) (ipnet : IPNet)
    (h : ParseCIDR s = .ok (ip, ipnet)) :
    ∃ W p, (W = 32 ∨ W = 128) ∧ p ≤ W ∧ ipnet.Mask = CIDRMask p W ∧
      (W = 32 →
        (1 ≤ p → stopsAfter ipnet (IP.Mask ip ipnet.Mask) (2 ^ (32 - p))) ∧
        (p = 0 → ∀ fuel, hostsLoop ipnet fuel (IP.Mask ip ipnet.Mask) [] = none)) ∧
      (W = 128 →
        stopsAfter ipnet (IP.Mask ip ipnet.Mask)
          (if IP.To4 ipnet.IP = [] ∧ beNat ipnet.IP ≤ v4MappedBase ∧
              v4MappedBase < beNat ipnet.IP + 2 ^ (128 - p)
            then v4MappedBase - beNat ipnet.IP else 2 ^ (128 - p))) := by
  obtain ⟨a, p, hp, hip, hmask, hnet, h4⟩ := ParseCIDR_ok s ip ipnet h
  obtain ⟨nn, m⟩ := ipnet
  simp only at hmask hnet ⊢
  cases his4 : a.is4 with
  | true =>
    obtain ⟨f, hflen, hfb, hf⟩ := h4 his4
    have hbl : a.BitLen = 32 := by simp [Addr.BitLen, his4]
    rw [hbl] at hp hmask
    have hF := beNat_lt f hfb
    rw [hflen, show (256 : Nat) ^ 4 = 2 ^ 32 by norm_num] at hF
    refine ⟨32, p, Or.inl rfl, hp, hmask, fun _ => ?_, fun hc => by omega⟩
    rw [CIDRMask_32 p hp] at hmask
    have hstart : IP.Mask ip m =
        List.zipWith (fun b m => b &&& m) (beBytes 4 (beNat f)) (cidrMaskLoop 4 p) := by
      rw [hip, hmask, Mask_v4 _ _ _ hf hF]
    rw [hstart] at hnet ⊢
    subst hnet hmask
    exact hostsLoop_v4 p (beBytes 4 (beNat f)) hp (beBytes_length 4 _) (beBytes_bytes 4 _)
  | false =>
    have hbl : a.BitLen = 128 := by simp [Addr.BitLen, his4]
    rw [hbl] at hp hmask
    refine ⟨128, p, Or.inr rfl, hp, hmask, fun hc => by omega, fun _ => ?_⟩
    rw [CIDRMask_128 p hp] at hmask
    have hstart : IP.Mask ip m =
        List.zipWith (fun b m => b &&& m) (beBytes 16 a.addr) (cidrMaskLoop 16 p) := by
      rw [hip, hmask, Mask_v6]
    rw [hstart] at hnet ⊢
    subst hnet hmask
    exact hostsLoop_v6 p (beBytes 16 a.addr) hp (beBytes_length 16 _) (beBytes_bytes 16 _)

theorem stopsAfter_terminates {ipnet : IPNet} {start : IP} {n : Nat}
    (h : stopsAfter ipnet start n) : ∃ fuel ips, hostsLoop ipnet fuel start [] = some ips :=
  ⟨n + 1, _, by rw [h (n + 1), if_pos (Nat.lt_succ_self n)]⟩

theorem stopsAfter_length {ipnet : IPNet} {start : IP} {n : Nat}
    (h : stopsAfter ipnet start n) (fuel : Nat) (ips : List String)
    (hrun : hostsLoop ipnet fuel start [] = some ips) : n < fuel ∧ ips.length = n := by
  rw [h fuel] at hrun
  by_cases hf : n < fuel
  · rw [if_pos hf] at hrun
    simp only [Option.some.injEq] at hrun
    rw [← hrun]
    exact ⟨hf, by simp⟩
  · rw [if_neg hf] at hrun
    cases hrun

/-- C10, amended: for a parsed CIDR of address width `W` (32 or 128) and prefix length `p`,
the enumeration loop of `Hosts` terminates for an IPv4 block if and only if `p ≥ 1`, and
always terminates for an IPv6 block. When it terminates it has produced exactly
`2 ^ (W - p)` addresses, except for an IPv6 block whose network number is not an IPv4-mapped
address and which holds `::ffff:0:0`: there the loop stops at `::ffff:0:0`, having produced
the addresses from the network number up to it. -/
theorem hostsLoop_terminates_iff (s : String) (ip : IP) (ipnet : IPNet) (p W : Nat)
    (hparse : ParseCIDR s = .ok (ip, ipnet)) (hW : W = 32 ∨ W = 128) (hp : p ≤ W)
    (hmask : ipnet.Mask = CIDRMask p W) :
    (W = 32 →
      ((∃ fuel ips, hostsLoop ipnet fuel (IP.Mask ip ipnet.Mask) [] = some ips) ↔ 1 ≤ p)) ∧
    (W = 128 → ∃ fuel ips, hostsLoop ipnet fuel (IP.Mask ip ipnet.Mask) [] = some ips) ∧
    (∀ fuel ips, hostsLoop ipnet fuel (IP.Mask ip ipnet.Mask) [] = some ips →
      ips.length =
        if W = 128 ∧ IP.To4 ipnet.IP = [] ∧ beNat ipnet.IP ≤ v4MappedBase ∧
            v4MappedBase < beNat ipnet.IP + 2 ^ (128 - p)
          then v4MappedBase - beNat ipnet.IP else 2 ^ (W - p)) := by
  obtain ⟨V, q, hV, hq, hmask2, h32, h128⟩ := Hosts_enumeration s ip ipnet hparse
  obtain ⟨rfl, rfl⟩ := CIDRMask_inj p W q V hW hV hp hq (hmask.symm.trans hmask2)
  refine ⟨?_, ?_, ?_⟩
  · intro hw
    obtain ⟨hstop, hnever⟩ := h32 hw
    constructor
    · rintro ⟨fuel, ips, hrun⟩
      by_contra hp0
      rw [hnever (by omega) fuel] at hrun
      cases hrun
    · intro hp1
      exact stopsAfter_terminates (hstop hp1)
  · intro hw
    exact stopsAfter_terminates (h128 hw)
  · intro fuel ips hrun
    rcases hW with hw | hw
    · obtain ⟨hstop, hnever⟩ := h32 hw
      rw [if_neg (fun hc => by omega), hw]
      by_cases hp0 : p = 0
      · rw [hnever hp0 fuel] at hrun
        cases hrun
      · exact (stopsAfter_length (hstop (by omega)) fuel ips hrun).2
    · have hlen := (stopsAfter_length (h128 hw) fuel ips hrun).2
      rw [hlen, hw]
      simp only [true_and]

/-! ## Claims about `Hosts` -/

/-- `Hosts` on a parsed CIDR whose loop stops after `n` rounds. -/
theorem Hosts_of_stopsAfter (s : String) (ip : IP) (ipnet : IPNet) (n : Nat)
    (hparse : ParseCIDR s = .ok (ip, ipnet))
    (hstop : stopsAfter ipnet (IP.Mask ip ipnet.Mask) n) (fuel : Nat) :
    (fuel ≤ n → Hosts fuel s = none) ∧
    (n < fuel → Hosts fuel s =
      if n < 2 then
        some ⟨(List.range n).map (fun k => IP.String ((inc^[k]) (IP.Mask ip ipnet.Mask))), n,
          none⟩
      else
        some ⟨(((List.range n).map
          (fun k => IP.String ((inc^[k]) (IP.Mask ip ipnet.Mask)))).drop 1).take (n - 1 - 1),
          n - 2, none⟩) := by
  have hl := hstop fuel
  constructor
  · intro hf
    rw [if_neg (by omega)] at hl
    simp only [Hosts, hparse, hl]
  · intro hf
    rw [if_pos hf] at hl
    simp only [Hosts, hparse, hl, List.length_map, List.length_range]

/-- `Hosts` on a parsed CIDR whose loop never stops. -/
theorem Hosts_of_never (s : String) (ip : IP) (ipnet : IPNet)
    (hparse : ParseCIDR s = .ok (ip, ipnet))
    (hnever : ∀ fuel, hostsLoop ipnet fuel (IP.Mask ip ipnet.Mask) [] = none) (fuel : Nat) :
    Hosts fuel s = none := by
  simp only [Hosts, hparse, hnever fuel]

/-- The loop on an IPv4 `/31` stops after two rounds. -/
theorem stopsAfter_slash31 (s : String) (ip : IP) (ipnet : IPNet)
    (hparse : ParseCIDR s = .ok (ip, ipnet)) (hmask : ipnet.Mask = CIDRMask 31 32) :
    stopsAfter ipnet (IP.Mask ip ipnet.Mask) 2 := by
  obtain ⟨W, p, hW, hp, hmask2, h32, -⟩ := Hosts_enumeration s ip ipnet hparse
  obtain ⟨hw, hp31⟩ := CIDRMask_inj 31 32 p W (Or.inl rfl) hW (by omega) hp
    (hmask.symm.trans hmask2)
  subst hw hp31
  exact (h32 rfl).1 (by omega)

/-- The loop on the IPv4 `/0` never stops. -/
theorem hostsLoop_slash0_never (s : String) (ip : IP) (ipnet : IPNet)
    (hparse : ParseCIDR s = .ok (ip, ipnet)) (hmask : ipnet.Mask = CIDRMask 0 32) :
    ∀ fuel, hostsLoop ipnet fuel (IP.Mask ip ipnet.Mask) [] = none := by
  obtain ⟨W, p, hW, hp, hmask2, h32, -⟩ := Hosts_enumeration s ip ipnet hparse
  obtain ⟨hw, hp0⟩ := CIDRMask_inj 0 32 p W (Or.inl rfl) hW (by omega) hp
    (hmask.symm.trans hmask2)
  subst hw hp0
  exact (h32 rfl).2 rfl

/-! ### Dotted-decimal strings determine the address -/

theorem appendDecimal_eq (b : List Char) (x : Nat) :
    appendDecimal b x = b ++ appendDecimal [] x := by
  unfold appendDecimal
  by_cases h1 : x ≥ 100 <;> by_cases h2 : x ≥ 10 <;> simp [h1, h2]

set_option maxRecDepth 100000 in
theorem appendDecimal_no_dot : ∀ x < 256, '.' ∉ appendDecimal [] x := by
  decide

set_option maxRecDepth 100000 in
theorem appendDecimal_value : ∀ x < 256,
    (appendDecimal [] x).foldl (fun acc c => acc * 10 + (c.toNat - 48)) 0 = x := by
  decide

theorem appendDecimal_inj (x y : Nat) (hx : x < 256) (hy : y < 256)
    (h : appendDecimal [] x = appendDecimal [] y) : x = y := by
  rw [← appendDecimal_value x hx, ← appendDecimal_value y hy, h]

theorem split_at_dot (u : List Char) : ∀ (v r t : List Char), '.' ∉ u → '.' ∉ v →
    u ++ '.' :: r = v ++ '.' :: t → u = v ∧ r = t := by
  induction u with
  | nil =>
    intro v r t _ hv h
    cases v with
    | nil => simpa using h
    | cons c v =>
      simp only [List.nil_append, List.cons_append, List.cons.injEq] at h
      exact absurd (by rw [← h.1]; exact List.mem_cons_self _ _) hv
  | cons c u ih =>
    intro v r t hu hv h
    cases v with
    | nil =>
      simp only [List.nil_append, List.cons_append, List.cons.injEq] at h
      exact absurd (by rw [h.1]; exact List.mem_cons_self _ _) hu
    | cons d v =>
      simp only [List.cons_append, List.cons.injEq] at h
      obtain ⟨h1, h2⟩ := ih v r t (fun hc => hu (List.mem_cons_of_mem _ hc))
        (fun hc => hv (List.mem_cons_of_mem _ hc)) h.2
      exact ⟨by rw [h.1, h1], h2⟩

theorem string4_eq (a b c d : Nat) :
    string4 [a, b, c, d] =
      appendDecimal [] a ++ '.' :: (appendDecimal [] b ++ '.' ::
        (appendDecimal [] c ++ '.' :: appendDecimal [] d)) := by
  unfold string4
  simp only [List.getD_cons_zero, List.getD_cons_succ]
  rw [appendDecimal_eq _ d, appendDecimal_eq _ c, appendDecimal_eq _ b]
  simp [List.append_assoc]

theorem string4_inj (x y : List Nat) (hx : x.length = 4) (hy : y.length = 4) (hbx : Bytes x)
    (hby : Bytes y) (h : string4 x = string4 y) : x = y := by
  obtain ⟨a, b, c, d, rfl⟩ : ∃ a b c d, x = [a, b, c, d] := by
    rcases x with _ | ⟨a, _ | ⟨b, _ | ⟨c, _ | ⟨d, _ | ⟨e, t⟩⟩⟩⟩⟩
    all_goals simp at hx
    exact ⟨a, b, c, d, rfl⟩
  obtain ⟨a1, b1, c1, d1, rfl⟩ : ∃ a b c d, y = [a, b, c, d] := by
    rcases y with _ | ⟨a, _ | ⟨b, _ | ⟨c, _ | ⟨d, _ | ⟨e, t⟩⟩⟩⟩⟩
    all_goals simp at hy
    exact ⟨a, b, c, d, rfl⟩
  have hxb : a < 256 ∧ b < 256 ∧ c < 256 ∧ d < 256 := by
    refine ⟨hbx a ?_, hbx b ?_, hbx c ?_, hbx d ?_⟩ <;> simp
  have hyb : a1 < 256 ∧ b1 < 256 ∧ c1 < 256 ∧ d1 < 256 := by
    refine ⟨hby a1 ?_, hby b1 ?_, hby c1 ?_, hby d1 ?_⟩ <;> simp
  rw [string4_eq, string4_eq] at h
  obtain ⟨e1, h⟩ := split_at_dot _ _ _ _ (appendDecimal_no_dot a hxb.1)
    (appendDecimal_no_dot a1 hyb.1) h
  obtain ⟨e2, h⟩ := split_at_dot _ _ _ _ (appendDecimal_no_dot b hxb.2.1)
    (appendDecimal_no_dot b1 hyb.2.1) h
  obtain ⟨e3, e4⟩ := split_at_dot _ _ _ _ (appendDecimal_no_dot c hxb.2.2.1)
    (appendDecimal_no_dot c1 hyb.2.2.1) h
  rw [appendDecimal_inj a a1 hxb.1 hyb.1 e1, appendDecimal_inj b b1 hxb.2.1 hyb.2.1 e2,
    appendDecimal_inj c c1 hxb.2.2.1 hyb.2.2.1 e3, appendDecimal_inj d d1 hxb.2.2.2 hyb.2.2.2 e4]

theorem IP_String_of_length_4 (x : List Nat) (hx : x.length = 4) :
    IP.String x = String.mk (string4 x) := by
  unfold IP.String
  rw [To4_of_length_4 x hx]
  simp [hx]

theorem IP_String_inj_v4 (x y : List Nat) (hx : x.length = 4) (hy : y.length = 4)
    (hbx : Bytes x) (hby : Bytes y) (h : IP.String x = IP.String y) : x = y := by
  rw [IP_String_of_length_4 x hx, IP_String_of_length_4 y hy] at h
  exact string4_inj x y hx hy hbx hby (by injection h)

/-! ### `Hosts` on an IPv4 block with a prefix length of at least 1 -/

/-- The network `ParseCIDR` builds for an IPv4 CIDR. -/
theorem ParseCIDR_v4_form (s : String) (ip : IP) (ipnet : IPNet) (p : Nat)
    (hparse : ParseCIDR s = .ok (ip, ipnet)) (hp : p ≤ 32)
    (hmask : ipnet.Mask = CIDRMask p 32) :
    ∃ x4 : List Nat, x4.length = 4 ∧ Bytes x4 ∧
      ipnet = ⟨List.zipWith (fun b m => b &&& m) x4 (cidrMaskLoop 4 p), cidrMaskLoop 4 p⟩ ∧
      IP.Mask ip ipnet.Mask = List.zipWith (fun b m => b &&& m) x4 (cidrMaskLoop 4 p) := by
  obtain ⟨a, q, hq, hip, hmask2, hnet, h4⟩ := ParseCIDR_ok s ip ipnet hparse
  have hbl : a.BitLen = 32 ∨ a.BitLen = 128 := by
    unfold Addr.BitLen; cases a.is4 <;> simp
  obtain ⟨hw, hpq⟩ := CIDRMask_inj p 32 q a.BitLen (Or.inl rfl) hbl hp hq
    (hmask.symm.trans hmask2)
  subst hpq
  have his4 : a.is4 = true := by
    unfold Addr.BitLen at hw
    cases h : a.is4 with
    | true => rfl
    | false => rw [h] at hw; simp at hw
  obtain ⟨f, hflen, hfb, hf⟩ := h4 his4
  have hF := beNat_lt f hfb
  rw [hflen, show (256 : Nat) ^ 4 = 2 ^ 32 by norm_num] at hF
  obtain ⟨nn, m⟩ := ipnet
  simp only at hmask hnet ⊢
  rw [CIDRMask_32 p hp] at hmask
  have hstart : IP.Mask ip m =
      List.zipWith (fun b m => b &&& m) (beBytes 4 (beNat f)) (cidrMaskLoop 4 p) := by
    rw [hip, hmask, Mask_v4 _ _ _ hf hF]
  rw [hstart] at hnet
  exact ⟨beBytes 4 (beNat f), beBytes_length 4 _, beBytes_bytes 4 _, by rw [hnet, hmask],
    hstart⟩

/-- The interior of an enumeration: drop the first and the last of `n + 2` items. -/
theorem interior_of_range (f : Nat → String) (m : Nat) :
    (((List.range (m + 2)).map f).drop 1).take (m + 2 - 1 - 1) =
      (List.range m).map (fun k => f (k + 1)) := by
  rw [List.range_succ_eq_map, List.map_cons, List.drop_one, List.tail_cons, List.map_map,
    show m + 2 - 1 - 1 = m by omega, ← List.map_take, List.take_range,
    Nat.min_eq_left (Nat.le_succ m)]
  rfl

/-- The part of C1 that holds: for every valid IPv4 CIDR with a prefix length `p ≥ 1`, `Hosts`
returns (given a budget above the `2 ^ (32 - p)` rounds of its loop) the strings of a list of
addresses together with the length of that list and no error; for `p ≤ 31` the addresses are
exactly those of the block without the first and the last one, for `p = 32` the single
address of the block; the strings are pairwise distinct, every address is contained in the
network and lies in the numeric range of the block, and the addresses ascend strictly. -/
theorem Hosts_v4_block (s : String) (ip : IP) (ipnet : IPNet) (p : Nat)
    (hparse : ParseCIDR s = .ok (ip, ipnet)) (hmask : ipnet.Mask = CIDRMask p 32)
    (hp1 : 1 ≤ p) (hp : p ≤ 32) (fuel : Nat) (hfuel : 2 ^ (32 - p) < fuel) :
    ∃ addrs : List IP,
      Hosts fuel s = some ⟨addrs.map IP.String, addrs.length, none⟩ ∧
      addrs = (if p = 32 then [ipnet.IP]
        else (List.range (2 ^ (32 - p) - 2)).map
          (fun k => beBytes 4 (beNat ipnet.IP + 1 + k))) ∧
      (addrs.map IP.String).Nodup ∧
      (∀ a ∈ addrs, IPNet.Contains ipnet a = true) ∧
      addrs.Pairwise (fun a b => beNat a < beNat b) ∧
      (∀ a ∈ addrs, beNat ipnet.IP ≤ beNat a ∧ beNat a < beNat ipnet.IP + 2 ^ (32 - p)) := by
  obtain ⟨x4, hlen, hb, hform, hstart⟩ := ParseCIDR_v4_form s ip ipnet p hparse hp hmask
  have hstop := (hostsLoop_v4 p x4 hp hlen hb).1 hp1
  have hnnlen : (List.zipWith (fun b m => b &&& m) x4 (cidrMaskLoop 4 p)).length = 4 := by
    rw [List.length_zipWith, cidrMaskLoop_length, hlen]; rfl
  have hnnb := Bytes_zipWith_land x4 (cidrMaskLoop 4 p) hb
  have hN := beNat_land_mask 4 p x4 (by omega) hlen hb
  rw [show 8 * 4 - p = 32 - p by omega] at hN
  have hal := aligned_of_eq hN
  have hlt := beNat_lt _ hnnb
  rw [hnnlen, show (256 : Nat) ^ 4 = 2 ^ 32 by norm_num] at hlt
  have hnn := beBytes_beNat _ hnnb
  rw [hnnlen] at hnn
  have hC := fun v => Contains_v4 p x4 hp hlen hb v
  have hIP : ipnet.IP = List.zipWith (fun b m => b &&& m) x4 (cidrMaskLoop 4 p) := by
    rw [hform]
  rw [← hform] at hstop hC
  rw [← hIP] at hstop hN hal hlt hnn hC hnnb hnnlen
  have hstartIP : IP.Mask ip ipnet.Mask = ipnet.IP := hstart.trans hIP.symm
  rw [← hstartIP] at hstop
  generalize hNdef : beNat ipnet.IP = N at hN hal hlt hnn hC
  have hH := (Hosts_of_stopsAfter s ip ipnet _ hparse hstop fuel).2 hfuel
  rw [hstartIP, ← hnn] at hH
  simp only [inc_iterate] at hH
  have hT : 0 < 2 ^ (32 - p) := Nat.two_pow_pos _
  have hin : ∀ k < 2 ^ (32 - p), IPNet.Contains ipnet (beBytes 4 (N + k)) = true ∧
      beNat (beBytes 4 (N + k)) = N + k := by
    intro k hk
    obtain ⟨h1, h2⟩ := block_inside 32 (32 - p) N k (by omega) hlt hal hk
    refine ⟨?_, ?_⟩
    · rw [hC, Nat.mod_eq_of_lt h1, h2]
    · rw [beNat_beBytes, show (256 : Nat) ^ 4 = 2 ^ 32 by norm_num, Nat.mod_eq_of_lt h1]
  by_cases hp32 : p = 32
  · subst hp32
    refine ⟨[ipnet.IP], ?_, by simp, by simp, ?_, by simp, ?_⟩
    · rw [hH, ← hnn]
      simp [show List.range 1 = [0] from rfl]
    · intro a ha
      rw [List.mem_singleton] at ha
      have := (hin 0 hT).1
      rwa [Nat.add_zero, hnn, ← ha] at this
    · intro a ha
      rw [List.mem_singleton] at ha
      rw [ha, hNdef]
      omega
  · rw [if_neg hp32]
    have h2 : 2 ≤ 2 ^ (32 - p) := by
      have : 2 ^ 1 ≤ 2 ^ (32 - p) := Nat.pow_le_pow_right (by norm_num) (by omega)
      simpa using this
    obtain ⟨m, hm⟩ : ∃ m, 2 ^ (32 - p) = m + 2 := ⟨2 ^ (32 - p) - 2, by omega⟩
    have hmem : ∀ a ∈ (List.range m).map (fun k => beBytes 4 (N + 1 + k)),
        ∃ k < m, a = beBytes 4 (N + (k + 1)) := by
      intro a ha
      obtain ⟨k, hk, rfl⟩ := List.mem_map.1 ha
      exact ⟨k, List.mem_range.1 hk, by rw [show N + 1 + k = N + (k + 1) by omega]⟩
    have hpair : ((List.range m).map (fun k => beBytes 4 (N + 1 + k))).Pairwise
        (fun a b => beNat a < beNat b) := by
      rw [List.pairwise_map]
      refine List.Pairwise.imp_of_mem ?_ (List.pairwise_lt_range m)
      intro a b ha hb hab
      rw [List.mem_range] at ha hb
      rw [show N + 1 + a = N + (a + 1) by omega, show N + 1 + b = N + (b + 1) by omega,
        (hin (a + 1) (by omega)).2, (hin (b + 1) (by omega)).2]
      omega
    refine ⟨(List.range m).map (fun k => beBytes 4 (N + 1 + k)), ?_, ?_, ?_, ?_, hpair, ?_⟩
    · rw [hH, hm, if_neg (by omega), interior_of_range, List.map_map]
      simp only [List.length_map, List.length_range, Nat.add_sub_cancel, Function.comp_def]
      congr 3
      funext k
      rw [show N + (k + 1) = N + 1 + k by omega]
    · rw [hm, Nat.add_sub_cancel]
    · rw [List.Nodup, List.pairwise_map]
      refine List.Pairwise.imp_of_mem ?_ hpair
      intro a b ha hb hab heq
      obtain ⟨k, -, rfl⟩ := hmem a ha
      obtain ⟨j, -, rfl⟩ := hmem b hb
      have := IP_String_inj_v4 _ _ (beBytes_length 4 _) (beBytes_length 4 _)
        (beBytes_bytes 4 _) (beBytes_bytes 4 _) heq
      rw [this] at hab
      exact Nat.lt_irrefl _ hab
    · intro a ha
      obtain ⟨k, hk, rfl⟩ := hmem a ha
      exact (hin (k + 1) (by omega)).1
    · intro a ha
      obtain ⟨k, hk, rfl⟩ := hmem a ha
      rw [(hin (k + 1) (by omega)).2]
      omega

/-- The spec's example as an instance of `Hosts_v4_block`. -/
theorem Hosts_v4_block_example :
    ∃ addrs : List IP,
      Hosts 8 "10.0.0.0/30" = some ⟨addrs.map IP.String, addrs.length, none⟩ ∧
      addrs = [[10, 0, 0, 1], [10, 0, 0, 2]] := by
  obtain ⟨addrs, h1, h2, -⟩ := Hosts_v4_block "10.0.0.0/30"
    [0, 0, 0, 0, 0, 0, 0, 0, 0, 0, 255, 255, 10, 0, 0, 0] ⟨[10, 0, 0, 0], [255, 255, 255, 252]⟩
    30 (by rfl) (by rfl) (by decide) (by decide) 8 (by decide)
  exact ⟨addrs, h1, by rw [h2]; decide⟩

/-- C1, evaluated on the input on which the code departs from it: on the valid CIDR
`0.0.0.0/0` the enumeration loop of `Hosts` exhausts every step budget, so `Hosts` never
returns; on the spec's example `10.0.0.0/30` it returns the two interior addresses and
count 2. -/
theorem Hosts_never_returns_on_slash0 :
    (∀ fuel, Hosts fuel "0.0.0.0/0" = none) ∧
    Hosts 8 "10.0.0.0/30" = some ⟨["10.0.0.1", "10.0.0.2"], 2, none⟩ := by
  refine ⟨fun fuel => ?_, by decide⟩
  have hparse : ParseCIDR "0.0.0.0/0" =
      .ok ([0, 0, 0, 0, 0, 0, 0, 0, 0, 0, 255, 255, 0, 0, 0, 0],
        ⟨[0, 0, 0, 0], [0, 0, 0, 0]⟩) := by rfl
  exact Hosts_of_never _ _ _ hparse (hostsLoop_slash0_never _ _ _ hparse (by rfl)) fuel

/-- C2 as stated fails: `Hosts("10.0.0.0/31")` returns no address and count 0, for every
step budget that lets it return; it never returns both addresses of the block. -/
theorem Hosts_slash31_not_both :
    Hosts 8 "10.0.0.0/31" = some ⟨[], 0, none⟩ ∧
    ∀ fuel, Hosts fuel "10.0.0.0/31" ≠ some ⟨["10.0.0.0", "10.0.0.1"], 2, none⟩ := by
  refine ⟨by decide, fun fuel hc => ?_⟩
  have hparse : ParseCIDR "10.0.0.0/31" =
      .ok ([0, 0, 0, 0, 0, 0, 0, 0, 0, 0, 255, 255, 10, 0, 0, 0],
        ⟨[10, 0, 0, 0], [255, 255, 255, 254]⟩) := by rfl
  have hstop := stopsAfter_slash31 _ _ _ hparse (by rfl)
  obtain ⟨h1, h2⟩ := Hosts_of_stopsAfter _ _ _ 2 hparse hstop fuel
  by_cases hf : 2 < fuel
  · rw [h2 hf, if_neg (by omega)] at hc
    simp at hc
  · rw [h1 (by omega)] at hc
    cases hc

/-- C2, amended: for every valid IPv4 `/31` block, `Hosts` returns the empty list and count 0
(both addresses of the block are dropped as network and broadcast address): it does so for
every step budget of at least 3, and it returns nothing else for any budget. -/
theorem Hosts_slash31_empty (s : String) (ip : IP) (ipnet : IPNet)
    (hparse : ParseCIDR s = .ok (ip, ipnet)) (hmask : ipnet.Mask = CIDRMask 31 32) :
    (∀ fuel, 3 ≤ fuel → Hosts fuel s = some ⟨[], 0, none⟩) ∧
    (∀ fuel r, Hosts fuel s = some r → r = ⟨[], 0, none⟩) := by
  have hstop := stopsAfter_slash31 s ip ipnet hparse hmask
  have key : ∀ fuel, 3 ≤ fuel → Hosts fuel s = some ⟨[], 0, none⟩ := by
    intro fuel hf
    rw [(Hosts_of_stopsAfter s ip ipnet 2 hparse hstop fuel).2 (by omega), if_neg (by omega)]
    simp
  refine ⟨key, fun fuel r hr => ?_⟩
  by_cases hf : 3 ≤ fuel
  · rw [key fuel hf] at hr
    cases hr
    rfl
  · rw [(Hosts_of_stopsAfter s ip ipnet 2 hparse hstop fuel).1 (by omega)] at hr
    cases hr

/-- Witness of the amended C2: the block `10.0.0.0/31`. -/
theorem Hosts_slash31_empty_witness :
    ParseCIDR "10.0.0.0/31" =
      .ok ([0, 0, 0, 0, 0, 0, 0, 0, 0, 0, 255, 255, 10, 0, 0, 0],
        ⟨[10, 0, 0, 0], [255, 255, 255, 254]⟩) ∧
    (∀ fuel, 3 ≤ fuel → Hosts fuel "10.0.0.0/31" = some ⟨[], 0, none⟩) ∧
    (∀ fuel r, Hosts fuel "10.0.0.0/31" = some r → r = ⟨[], 0, none⟩) :=
  ⟨by rfl, Hosts_slash31_empty "10.0.0.0/31"
    [0, 0, 0, 0, 0, 0, 0, 0, 0, 0, 255, 255, 10, 0, 0, 0]
    ⟨[10, 0, 0, 0], [255, 255, 255, 254]⟩ (by rfl) (by rfl)⟩

/-- C10 as stated fails: `::/0` has prefix length 0, yet its enumeration loop terminates: it
stops at `::ffff:0:0` after `0xffff * 2 ^ 32` rounds, which is not `2 ^ 128`. -/
theorem hostsLoop_v6_slash0_terminates :
    ParseCIDR "::/0" = .ok (List.replicate 16 0, ⟨List.replicate 16 0, CIDRMask 0 128⟩) ∧
    (∃ fuel ips,
      hostsLoop ⟨List.replicate 16 0, CIDRMask 0 128⟩ fuel
        (IP.Mask (List.replicate 16 0) (CIDRMask 0 128)) [] = some ips ∧
      ips.length = 0xffff * 2 ^ 32) ∧
    0xffff * 2 ^ 32 ≠ 2 ^ (128 - 0) := by
  have hparse : ParseCIDR "::/0" =
      .ok (List.replicate 16 0, ⟨List.replicate 16 0, CIDRMask 0 128⟩) := by rfl
  refine ⟨hparse, ?_, by norm_num⟩
  obtain ⟨W, p, hW, hp, hmask2, -, h128⟩ := Hosts_enumeration _ _ _ hparse
  obtain ⟨hw, hp0⟩ := CIDRMask_inj 0 128 p W (Or.inr rfl) hW (by omega) hp hmask2
  subst hw hp0
  have hstop := h128 rfl
  have hcond : IP.To4 (List.replicate 16 0) = [] ∧ beNat (List.replicate 16 0) ≤ v4MappedBase ∧
      v4MappedBase < beNat (List.replicate 16 0) + 2 ^ (128 - 0) := by
    refine ⟨by decide, ?_, ?_⟩
    · rw [beNat_replicate_zero]; exact Nat.zero_le _
    · rw [beNat_replicate_zero]; unfold v4MappedBase; norm_num
  simp only [] at hstop
  rw [if_pos hcond, beNat_replicate_zero, Nat.sub_zero] at hstop
  have hl := hstop (v4MappedBase + 1)
  rw [if_pos (Nat.lt_succ_self _)] at hl
  exact ⟨v4MappedBase + 1, _, hl, by simp [v4MappedBase]⟩

/-- Witness of the amended C10: the block `10.0.0.0/30` (width 32, prefix length 30): its
loop terminates, and whenever it does it has produced `2 ^ (32 - 30)` addresses. -/
theorem hostsLoop_terminates_iff_witness :
    ((∃ fuel ips, hostsLoop ⟨[10, 0, 0, 0], [255, 255, 255, 252]⟩ fuel
        (IP.Mask [0, 0, 0, 0, 0, 0, 0, 0, 0, 0, 255, 255, 10, 0, 0, 0] [255, 255, 255, 252]) [] =
          some ips) ↔ 1 ≤ 30) ∧
    (∀ fuel ips, hostsLoop ⟨[10, 0, 0, 0], [255, 255, 255, 252]⟩ fuel
        (IP.Mask [0, 0, 0, 0, 0, 0, 0, 0, 0, 0, 255, 255, 10, 0, 0, 0] [255, 255, 255, 252]) [] =
          some ips → ips.length = 2 ^ (32 - 30)) := by
  have h := hostsLoop_terminates_iff "10.0.0.0/30"
    [0, 0, 0, 0, 0, 0, 0, 0, 0, 0, 255, 255, 10, 0, 0, 0]
    ⟨[10, 0, 0, 0], [255, 255, 255, 252]⟩ 30 32 (by rfl) (Or.inl rfl) (by decide) (by rfl)
  refine ⟨h.1 rfl, fun fuel ips hrun => ?_⟩
  have hlen := h.2.2 fuel ips hrun
  rw [if_neg (fun hc => absurd hc.1 (by decide))] at hlen
  exact hlen

end SmartDns
